import Mathlib

/-! # Intrusive reference counting: `intrusive_ref_counter` and `intrusive_ptr`

A shallow embedding of `src/solution.h`.

* A counted object is identified by its address (a `Nat`); a raw pointer
  `element_type *` is an `Option Nat`, `none` being `nullptr`.
* `_counter` is a `std::atomic_size_t`: a word of `w` bits.  It is kept as a
  `Nat` and every `fetch_add` / `fetch_sub` reduces modulo `2 ^ w`.
* `delete` is recorded by counting, per address, how often it ran.
* Every `intrusive_ptr` object (named variables and the temporaries the member
  functions create) is a slot of the list `State.handles`; a handle is named
  by its index, so two names may denote the same handle (aliasing).
* Member functions are state transformers; the ones written in the source as
  "construct a temporary, swap, let the temporary die" are composed here from
  the same three pieces, in the same order.
* The escape hatch (`detach`, `add_ref = false`) is followed in `Tracked`, a
  state with the number of outstanding detached references per object.
* Threads are followed in `CState`: the copy constructor, the move constructor
  and the destructor are cut into their atomic steps (`Step`), and an
  interleaving is a list of such steps.  Memory orderings are not modelled:
  the read-modify-writes of one atomic counter are totally ordered whatever
  ordering argument they carry.
* `operator<` (`return std::less(a.get(), b.get());`) has no embedding: the
  expression constructs a `std::less` object from two pointers, for which the
  class has no constructor, so the operator has no value to translate.
-/

namespace IntrusivePtr

/-- One `intrusive_ptr<T>` object: either its lifetime has ended, or it is
alive and its private member `ptr` holds a raw pointer. -/
inductive Handle where
  | destroyed : Handle
  | live (ptr : Option Nat) : Handle
deriving DecidableEq, Repr

/-- The counted objects: the `_counter` member of the object at every address,
and the number of times `delete` ran on every address. -/
structure Heap where
  counter : Nat → Nat
  deleted : Nat → Nat

/-- The program state: the counted objects and all handle objects. -/
structure State where
  heap : Heap
  handles : List Handle

/-- Freshly constructed objects: `_counter = 0`, nothing deleted. -/
def Heap.init : Heap :=
  { counter := fun _ => 0, deleted := fun _ => 0 }

/-- Freshly constructed objects and no handle. -/
def State.init : State :=
  { heap := Heap.init, handles := [] }

/-! ## The mixin `intrusive_ref_counter<T>` -/

/-- Method `use_count()`: `return _counter;`. -/
def use_count (m : Heap) (p : Nat) : Nat :=
  m.counter p

/-- Friend `intrusive_ptr_add_ref(p)`: `p->_counter.fetch_add(1, relaxed)`. -/
def intrusive_ptr_add_ref (w : Nat) (m : Heap) (p : Nat) : Heap :=
  { m with counter := fun a => if a = p then (m.counter p + 1) % 2 ^ w else m.counter a }

/-- Friend `intrusive_ptr_release(p)`:
`if (p->_counter.fetch_sub(1, acq_rel) == 1) delete static_cast<const T*>(p);`.
`fetch_sub` stores the decremented word and returns the previous value. -/
def intrusive_ptr_release (w : Nat) (m : Heap) (p : Nat) : Heap :=
  let old := m.counter p
  let m1 : Heap :=
    { m with counter := fun a => if a = p then (old + 2 ^ w - 1) % 2 ^ w else m.counter a }
  if old = 1 then
    { m1 with deleted := fun a => if a = p then m1.deleted p + 1 else m1.deleted a }
  else m1

/-! ## The handle `intrusive_ptr<T>` -/

/-- Method `get()`: `return ptr;` of handle `h`. -/
def get (s : State) (h : Nat) : Option Nat :=
  match s.handles[h]? with
  | some (Handle.live p) => p
  | _ => none

/-- Conversion `explicit operator bool()`: `return get() != 0;`. -/
def operator_bool (s : State) (h : Nat) : Bool :=
  (get s h).isSome

/-- Store `p` into the member `ptr` of handle `h`. -/
def setPtr (s : State) (h : Nat) (p : Option Nat) : State :=
  { s with handles := s.handles.set h (Handle.live p) }

/-- Begin the lifetime of a new handle whose member `ptr` is initialised with
`p`; the new handle is the pair's second component. -/
def newHandle (s : State) (p : Option Nat) : State × Nat :=
  ({ s with handles := s.handles ++ [Handle.live p] }, s.handles.length)

/-- Default constructor `intrusive_ptr() noexcept = default;` with
`element_type *ptr = nullptr;`. -/
def ctor_default (s : State) : State × Nat :=
  newHandle s none

/-- Constructor `intrusive_ptr(element_type *ptr, bool add_ref = true) : ptr(ptr)`
with body `if (ptr && add_ref) intrusive_ptr_add_ref(ptr);`. -/
def ctor_raw (w : Nat) (s : State) (ptr : Option Nat) (add_ref : Bool) : State × Nat :=
  let r := newHandle s ptr
  match ptr with
  | some a =>
    if add_ref then ({ r.1 with heap := intrusive_ptr_add_ref w r.1.heap a }, r.2) else r
  | none => r

/-- Copy constructor `intrusive_ptr(intrusive_ptr const &r) : intrusive_ptr(r.get())`. -/
def ctor_copy (w : Nat) (s : State) (r : Nat) : State × Nat :=
  ctor_raw w s (get s r) true

/-- Move constructor `intrusive_ptr(intrusive_ptr &&r) : ptr(std::exchange(r.ptr, nullptr))`. -/
def ctor_move (s : State) (r : Nat) : State × Nat :=
  let old := get s r
  newHandle (setPtr s r none) old

/-- Destructor `~intrusive_ptr()`: `if (ptr) intrusive_ptr_release(ptr);`, after
which the lifetime of the handle has ended. -/
def dtor (w : Nat) (s : State) (h : Nat) : State :=
  let m := match get s h with
    | some a => intrusive_ptr_release w s.heap a
    | none => s.heap
  { heap := m, handles := s.handles.set h Handle.destroyed }

/-- Method `swap(b)`: `std::swap(ptr, b.ptr)`, that is
`tmp = ptr; ptr = b.ptr; b.ptr = tmp;`. -/
def swap (s : State) (a b : Nat) : State :=
  let tmp := get s a
  let s1 := setPtr s a (get s b)
  setPtr s1 b tmp

/-- Raw-pointer assignment `operator=(element_type *r)`:
`intrusive_ptr(r).swap(*this);` and the temporary dies at the end of the
statement. -/
def assign_raw (w : Nat) (s : State) (h : Nat) (r : Option Nat) : State :=
  let t := ctor_raw w s r true
  dtor w (swap t.1 t.2 h) t.2

/-- Copy assignment `operator=(intrusive_ptr const &r)`: `return operator=(r.get());`. -/
def assign_copy (w : Nat) (s : State) (h r : Nat) : State :=
  assign_raw w s h (get s r)

/-- Move assignment `operator=(intrusive_ptr &&r)`:
`intrusive_ptr(std::move(r)).swap(*this);`. -/
def assign_move (w : Nat) (s : State) (h r : Nat) : State :=
  let t := ctor_move s r
  dtor w (swap t.1 t.2 h) t.2

/-- Method `reset()`: `intrusive_ptr().swap(*this);`. -/
def reset (w : Nat) (s : State) (h : Nat) : State :=
  let t := ctor_default s
  dtor w (swap t.1 t.2 h) t.2

/-- Method `reset(element_type *r, bool add_ref = true)`:
`intrusive_ptr(r, add_ref).swap(*this);`. -/
def reset_raw (w : Nat) (s : State) (h : Nat) (r : Option Nat) (add_ref : Bool) : State :=
  let t := ctor_raw w s r add_ref
  dtor w (swap t.1 t.2 h) t.2

/-- Method `detach()`: `return std::exchange(ptr, nullptr);`. -/
def detach (s : State) (h : Nat) : State × Option Nat :=
  (setPtr s h none, get s h)

/-! ## Observations used by the specification -/

/-- Handle `h` is an `intrusive_ptr` object whose lifetime has begun and not ended. -/
def isLive (s : State) (h : Nat) : Bool :=
  match s.handles[h]? with
  | some (Handle.live _) => true
  | _ => false

/-- Number of live handles whose stored address is the object `a`. -/
def holders (s : State) (a : Nat) : Nat :=
  s.handles.count (Handle.live (some a))

/-- Number of live handles. -/
def liveCount (s : State) : Nat :=
  s.handles.countP (fun h => h != Handle.destroyed)

/-- A raw pointer a client may pass: null, or the address of an object that
has not been deleted. -/
def validPtr (s : State) (p : Option Nat) : Bool :=
  match p with
  | none => true
  | some a => s.heap.deleted a == 0

/-! ## Sequences of handle operations -/

/-- The handle operations a client performs (adopting construction with
`add_ref = false` and `detach` are not among them). -/
inductive Op where
  | defaultCtor : Op
  | rawCtor (p : Option Nat) : Op
  | copyCtor (r : Nat) : Op
  | moveCtor (r : Nat) : Op
  | copyAssign (d r : Nat) : Op
  | moveAssign (d r : Nat) : Op
  | rawAssign (d : Nat) (p : Option Nat) : Op
  | reset (h : Nat) : Op
  | resetRaw (h : Nat) (p : Option Nat) : Op
  | swap (a b : Nat) : Op
  | destroy (h : Nat) : Op
deriving DecidableEq, Repr

/-- The state after one operation. -/
def Op.apply (w : Nat) (s : State) : Op → State
  | Op.defaultCtor => (ctor_default s).1
  | Op.rawCtor p => (ctor_raw w s p true).1
  | Op.copyCtor r => (ctor_copy w s r).1
  | Op.moveCtor r => (ctor_move s r).1
  | Op.copyAssign d r => assign_copy w s d r
  | Op.moveAssign d r => assign_move w s d r
  | Op.rawAssign d p => assign_raw w s d p
  | Op.reset h => IntrusivePtr.reset w s h
  | Op.resetRaw h p => reset_raw w s h p true
  | Op.swap a b => IntrusivePtr.swap s a b
  | Op.destroy h => dtor w s h

/-- The handles an operation names are alive and the raw pointers it passes
are valid. -/
def Op.argsOk (s : State) : Op → Bool
  | Op.defaultCtor => true
  | Op.rawCtor p => validPtr s p
  | Op.copyCtor r => isLive s r
  | Op.moveCtor r => isLive s r
  | Op.copyAssign d r => isLive s d && isLive s r
  | Op.moveAssign d r => isLive s d && isLive s r
  | Op.rawAssign d p => isLive s d && validPtr s p
  | Op.reset h => isLive s h
  | Op.resetRaw h p => isLive s h && validPtr s p
  | Op.swap a b => isLive s a && isLive s b
  | Op.destroy h => isLive s h

/-- The operation constructs a handle object: a named one, or the temporary
of the "construct, swap, destroy" idiom. -/
def Op.constructs : Op → Bool
  | Op.swap _ _ => false
  | Op.destroy _ => false
  | _ => true

/-- An operation a well-behaved client may perform in state `s`: its arguments
are in order, and when it constructs a handle object there is storage for it.
Every handle object occupies storage of its own in a `w`-bit address space, so
fewer than `2 ^ w` of them are ever alive together. -/
def Op.ok (w : Nat) (s : State) (op : Op) : Prop :=
  op.argsOk s = true ∧ (op.constructs = true → liveCount s + 1 < 2 ^ w)

instance (w : Nat) (s : State) (op : Op) : Decidable (op.ok w s) := by
  unfold Op.ok
  infer_instance

/-- The state after a sequence of operations. -/
def run (w : Nat) (s : State) : List Op → State
  | [] => s
  | op :: ops => run w (op.apply w s) ops

/-- Every operation of the sequence is one a well-behaved client may perform
in the state it is performed in. -/
def okRun (w : Nat) (s : State) : List Op → Prop
  | [] => True
  | op :: ops => op.ok w s ∧ okRun w (op.apply w s) ops

instance okRunDecidable (w : Nat) : (s : State) → (ops : List Op) → Decidable (okRun w s ops)
  | _, [] => isTrue trivial
  | s, op :: ops =>
    have := okRunDecidable w (op.apply w s) ops
    inferInstanceAs (Decidable (op.ok w s ∧ okRun w (op.apply w s) ops))

/-! ## Vocabulary of the proofs -/

/-- Optional `intrusive_ptr_add_ref`: the guarded call `if (ptr && add_ref)`
of the constructor, with `add_ref` true. -/
def addOpt (w : Nat) (m : Heap) : Option Nat → Heap
  | some a => intrusive_ptr_add_ref w m a
  | none => m

/-- Optional `intrusive_ptr_release`: the guarded call `if (ptr)` of the
destructor. -/
def relOpt (w : Nat) (m : Heap) : Option Nat → Heap
  | some a => intrusive_ptr_release w m a
  | none => m

/-- Counting invariant: an object that has not been deleted has as many holders
as its counter says; a deleted object was deleted once, its counter reads zero
and nothing holds it. -/
def Inv (s : State) : Prop :=
  ∀ a, (s.heap.deleted a = 0 ∧ s.heap.counter a = holders s a) ∨
    (s.heap.deleted a = 1 ∧ s.heap.counter a = 0 ∧ holders s a = 0)

/-- Net effect of a handle operation: one optional `add_ref` on `p` followed by
one optional `release` on `q`, and the matching change of the holders. -/
structure Effect (w : Nat) (s t : State) (p q : Option Nat) : Prop where
  heap : t.heap = relOpt w (addOpt w s.heap p) q
  holders : ∀ a, holders t a + (if q = some a then 1 else 0)
    = holders s a + (if p = some a then 1 else 0)

/-! ## Concrete states used as examples -/

/-- A sole owner: one handle, built from the raw address 7. -/
def soleOwner : State := (ctor_raw 64 State.init (some 7) true).1

/-- Two handles owning two different objects. -/
def twoOwners : State := run 64 State.init [Op.rawCtor (some 7), Op.rawCtor (some 8)]

/-- A short life of object 7: wrapped, copied, first handle destroyed. -/
def oneLeft : List Op := [Op.rawCtor (some 7), Op.copyCtor 0, Op.destroy 0]

/-! ## Further members and free functions -/

/-- What the specification says `reset()` is equivalent to, "assigning a null
handle": `intrusive_ptr n; h = n;` with the copy assignment of the source. -/
def reset_as_assignment (w : Nat) (s : State) (h : Nat) : State :=
  let n := ctor_default s
  assign_copy w n.1 h n.2

/-- Free function `swap(a, b)`: `a.swap(b);`. -/
def swap_free (s : State) (a b : Nat) : State :=
  swap s a b

/-- Free `operator==(intrusive_ptr<T> const &a, intrusive_ptr<U> const &b)`:
`return a.get() == b.get();`. -/
def operator_eq (s : State) (a b : Nat) : Bool :=
  get s a == get s b

/-- Free `operator!=(intrusive_ptr<T> const &a, intrusive_ptr<U> const &b)`:
`return a.get() != b.get();`. -/
def operator_ne (s : State) (a b : Nat) : Bool :=
  get s a != get s b

/-- Free `operator==(intrusive_ptr<T> const &a, U *b)`: `return a.get() == b;`. -/
def operator_eq_raw (s : State) (a : Nat) (b : Option Nat) : Bool :=
  get s a == b

/-- Free `operator!=(intrusive_ptr<T> const &a, U *b)`: `return a.get() != b;`. -/
def operator_ne_raw (s : State) (a : Nat) (b : Option Nat) : Bool :=
  get s a != b

/-- Free `operator==(T *a, intrusive_ptr<U> const &b)`: `return a == b.get();`. -/
def raw_operator_eq (s : State) (a : Option Nat) (b : Nat) : Bool :=
  a == get s b

/-- Free `operator!=(T *a, intrusive_ptr<U> const &b)`: `return a != b.get();`. -/
def raw_operator_ne (s : State) (a : Option Nat) (b : Nat) : Bool :=
  a != get s b

/-- Mixin copy constructor `intrusive_ref_counter(intrusive_ref_counter const &v)
noexcept {}` building the object at `self`: the body is empty and `v` is not
read, so `_counter` takes its default member initializer `= 0`. -/
def ref_counter_ctor_copy (m : Heap) (self _v : Nat) : Heap :=
  { m with counter := fun a => if a = self then 0 else m.counter a }

/-- Mixin copy assignment `operator=(intrusive_ref_counter const &)`:
`return *this;`. -/
def ref_counter_assign (m : Heap) (_self _v : Nat) : Heap :=
  m

/-- The scenario "wrap `X` in `a`, copy `a` into `b`, move `b` into `c`,
destroy `a`, destroy `c`"; the handles `a`, `b`, `c` are 0, 1, 2. -/
def lifecycle (X : Nat) : List Op :=
  [Op.rawCtor (some X), Op.copyCtor 0, Op.moveCtor 1, Op.destroy 0, Op.destroy 2]

/-! ## Handle operations with the escape hatch -/

/-- The address a client operation passes to `intrusive_ptr_add_ref`, if any. -/
def Op.acquires (s : State) : Op → Option Nat
  | Op.rawCtor p => p
  | Op.copyCtor r => get s r
  | Op.copyAssign _ r => get s r
  | Op.rawAssign _ p => p
  | Op.resetRaw _ p => p
  | _ => none

/-- The address a client operation passes to `intrusive_ptr_release`, if any. -/
def Op.releases (s : State) : Op → Option Nat
  | Op.copyAssign d _ => get s d
  | Op.moveAssign d r => if d = r then none else get s d
  | Op.rawAssign d _ => get s d
  | Op.reset h => get s h
  | Op.resetRaw h _ => get s h
  | Op.destroy h => get s h
  | _ => none

/-- A state together with the bookkeeping of the escape hatch: for every
object, the number of references handed out by `detach()` and not yet adopted
back by a construction or `reset` with `add_ref = false`. -/
structure Tracked where
  st : State
  detached : Nat → Nat

/-- Freshly constructed objects, no handle, nothing detached. -/
def Tracked.init : Tracked :=
  { st := State.init, detached := fun _ => 0 }

/-- One more outstanding detached reference to the object at `p`. -/
def credit (d : Nat → Nat) (p : Option Nat) : Nat → Nat :=
  fun a => if p = some a then d a + 1 else d a

/-- One outstanding detached reference to the object at `p` adopted back. -/
def debit (d : Nat → Nat) (p : Option Nat) : Nat → Nat :=
  fun a => if p = some a then d a - 1 else d a

/-- All handle operations: the client operations of `Op`, `detach()`, the
adopting constructor `intrusive_ptr(p, false)` and the adopting
`reset(p, false)`. -/
inductive AnyOp where
  | plain (op : Op) : AnyOp
  | detach (h : Nat) : AnyOp
  | adoptCtor (p : Option Nat) : AnyOp
  | adoptReset (h : Nat) (p : Option Nat) : AnyOp
deriving DecidableEq, Repr

/-- The tracked state after one operation. -/
def AnyOp.apply (w : Nat) (t : Tracked) : AnyOp → Tracked
  | AnyOp.plain op => { t with st := op.apply w t.st }
  | AnyOp.detach h =>
    { st := (IntrusivePtr.detach t.st h).1,
      detached := credit t.detached (IntrusivePtr.detach t.st h).2 }
  | AnyOp.adoptCtor p =>
    { st := (ctor_raw w t.st p false).1, detached := debit t.detached p }
  | AnyOp.adoptReset h p =>
    { st := reset_raw w t.st h p false, detached := debit t.detached p }

/-- The address is null or has an outstanding detached reference. -/
def adoptable (t : Tracked) (p : Option Nat) : Bool :=
  match p with
  | none => true
  | some a => decide (1 ≤ t.detached a)

/-- The counter of the object at `p` (if any) can take one more increment
within its `w` bits. -/
def roomFor (w : Nat) (s : State) (p : Option Nat) : Bool :=
  match p with
  | none => true
  | some a => decide (s.heap.counter a + 1 < 2 ^ w)

/-- An operation a well-behaved client may perform: live handles and valid raw
addresses, no counter overflow, and `add_ref = false` only on an address with
an outstanding detached reference. -/
def AnyOp.ok (w : Nat) (t : Tracked) : AnyOp → Bool
  | AnyOp.plain op => op.argsOk t.st && roomFor w t.st (op.acquires t.st)
  | AnyOp.detach h => isLive t.st h
  | AnyOp.adoptCtor p => adoptable t p
  | AnyOp.adoptReset h p => isLive t.st h && adoptable t p

/-- The tracked state after a sequence of operations. -/
def runAny (w : Nat) (t : Tracked) : List AnyOp → Tracked
  | [] => t
  | op :: ops => runAny w (op.apply w t) ops

/-- Every operation of the sequence is one a well-behaved client may perform
in the state it is performed in. -/
def okRunAny (w : Nat) (t : Tracked) : List AnyOp → Bool
  | [] => true
  | op :: ops => op.ok w t && okRunAny w (op.apply w t) ops

/-- Counting invariant with the escape hatch: an object that has not been
deleted has a counter, within `w` bits, equal to its holders plus its
outstanding detached references; a deleted object was deleted once, its
counter reads zero, nothing holds it and nothing detached is outstanding. -/
def TInv (w : Nat) (t : Tracked) : Prop :=
  ∀ a, (t.st.heap.deleted a = 0 ∧ t.st.heap.counter a = holders t.st a + t.detached a ∧
      t.st.heap.counter a < 2 ^ w) ∨
    (t.st.heap.deleted a = 1 ∧ t.st.heap.counter a = 0 ∧ holders t.st a + t.detached a = 0)

/-- A run that detaches and adopts: wrap object 7, copy, detach the copy,
adopt the detached reference back with `reset(p, false)` on a fresh handle. -/
def hatchOps : List AnyOp :=
  [AnyOp.plain (Op.rawCtor (some 7)), AnyOp.plain (Op.copyCtor 0), AnyOp.detach 1,
    AnyOp.adoptReset 1 (some 7), AnyOp.plain (Op.destroy 0)]

/-! ## Interleaved execution: every `fetch_add` / `fetch_sub` is one atomic step -/

/-- The atomic read-modify-write `p->_counter.fetch_sub(1, acq_rel)` of
`intrusive_ptr_release`: the new heap and the value the call returns. -/
def fetch_sub (w : Nat) (m : Heap) (p : Nat) : Heap × Nat :=
  ({ m with counter := fun a => if a = p then (m.counter p + 2 ^ w - 1) % 2 ^ w else m.counter a },
    m.counter p)

/-- The statement `delete static_cast<const T*>(p);` of `intrusive_ptr_release`. -/
def delete_object (m : Heap) (p : Nat) : Heap :=
  { m with deleted := fun a => if a = p then m.deleted p + 1 else m.deleted a }

/-- A handle object as the interleaving sees it: its lifetime has ended; or it
is alive, stores `ptr`, and `readers` copy constructions have read it and not
yet returned; or its destructor is running, `fetch_sub` on the object `a` has
returned `old`, and the comparison with 1 and the `delete` are still to come. -/
inductive Slot where
  | destroyed : Slot
  | live (ptr : Option Nat) (readers : Nat) : Slot
  | dying (a : Nat) (old : Nat) : Slot
deriving DecidableEq, Repr

/-- The state of an interleaved execution. -/
structure CState where
  heap : Heap
  slots : List Slot

/-- The atomic steps of the copy constructor, the move constructor and the
destructor.  Reading and writing the `ptr` member of a handle is local to the
thread that owns the handle; the steps on the shared counter are the
`fetch_add` of `copyEnd` and the `fetch_sub` of `destroyBegin`. -/
inductive Step where
  | copyBegin (r : Nat) : Step
  | copyEnd (r : Nat) : Step
  | move (r : Nat) : Step
  | destroyBegin (h : Nat) : Step
  | destroyEnd (h : Nat) : Step
deriving DecidableEq, Repr

/-- The state after one atomic step.
* `copyBegin r`: a thread enters `intrusive_ptr(r)` and reads `r.get()` into the
  `ptr` of the handle under construction.
* `copyEnd r`: that thread runs `if (ptr && add_ref) intrusive_ptr_add_ref(ptr)`
  and the constructor returns: the new handle exists.
* `move r`: `ptr(std::exchange(r.ptr, nullptr))`, on a handle nobody reads.
* `destroyBegin h`: `~intrusive_ptr` on a handle nobody reads; a non-null
  `ptr` reaches the `fetch_sub` of `intrusive_ptr_release`, a null one ends the
  destructor.
* `destroyEnd h`: the comparison `== 1` and, if it holds, the `delete`.
A step whose handle is not in the phase it needs changes nothing. -/
def Step.apply (w : Nat) (c : CState) : Step → CState
  | Step.copyBegin r =>
    match c.slots[r]? with
    | some (Slot.live p k) => { c with slots := c.slots.set r (Slot.live p (k + 1)) }
    | _ => c
  | Step.copyEnd r =>
    match c.slots[r]? with
    | some (Slot.live p (k + 1)) =>
      { heap := addOpt w c.heap p, slots := c.slots.set r (Slot.live p k) ++ [Slot.live p 0] }
    | _ => c
  | Step.move r =>
    match c.slots[r]? with
    | some (Slot.live p 0) =>
      { c with slots := c.slots.set r (Slot.live none 0) ++ [Slot.live p 0] }
    | _ => c
  | Step.destroyBegin h =>
    match c.slots[h]? with
    | some (Slot.live (some a) 0) =>
      { heap := (fetch_sub w c.heap a).1,
        slots := c.slots.set h (Slot.dying a (fetch_sub w c.heap a).2) }
    | some (Slot.live none 0) => { c with slots := c.slots.set h Slot.destroyed }
    | _ => c
  | Step.destroyEnd h =>
    match c.slots[h]? with
    | some (Slot.dying a old) =>
      { heap := if old = 1 then delete_object c.heap a else c.heap,
        slots := c.slots.set h Slot.destroyed }
    | _ => c

/-- Number of handle objects whose lifetime has not ended. -/
def occupied (c : CState) : Nat :=
  c.slots.countP (fun x => x != Slot.destroyed)

/-- A step that brings a new handle into existence needs storage for it among
fewer than `2 ^ w` handle objects. -/
def Step.ok (w : Nat) (c : CState) : Step → Bool
  | Step.copyEnd _ => decide (occupied c + 1 < 2 ^ w)
  | Step.move _ => decide (occupied c + 1 < 2 ^ w)
  | _ => true

/-- The state after a sequence of atomic steps, in the order the interleaving
performs them. -/
def crun (w : Nat) (c : CState) : List Step → CState
  | [] => c
  | st :: sts => crun w (st.apply w c) sts

/-- Every step of the interleaving has the storage it needs. -/
def cok (w : Nat) (c : CState) : List Step → Bool
  | [] => true
  | st :: sts => st.ok w c && cok w (st.apply w c) sts

/-- The handle stores the address `a`. -/
def Slot.holds (a : Nat) : Slot → Bool
  | Slot.live (some b) _ => decide (b = a)
  | _ => false

/-- The handle is in its destructor and its `fetch_sub` on `a` returned 1. -/
def Slot.lastOut (a : Nat) : Slot → Bool
  | Slot.dying b old => decide (b = a) && decide (old = 1)
  | _ => false

/-- Number of handles that store the address `a`. -/
def refs (c : CState) (a : Nat) : Nat :=
  c.slots.countP (Slot.holds a)

/-- Number of destructors that took the count of `a` from 1 to 0 and have not
yet run their `delete`. -/
def lastOuts (c : CState) (a : Nat) : Nat :=
  c.slots.countP (Slot.lastOut a)

/-- No member function is in progress on any handle. -/
def quiescent (c : CState) : Bool :=
  c.slots.all (fun x => match x with
    | Slot.destroyed => true
    | Slot.live _ k => decide (k = 0)
    | Slot.dying _ _ => false)

/-- The handles of a sequential state, none of them in use, as the starting
point of an interleaved execution. -/
def ofState (s : State) : CState :=
  { heap := s.heap,
    slots := s.handles.map (fun x => match x with
      | Handle.destroyed => Slot.destroyed
      | Handle.live p => Slot.live p 0) }

/-- Invariant of interleaved executions, for the object `a`: the counter is the
number of handles storing `a`; at most one `delete` of `a` has run or is about
to run; once that is so no handle stores `a`; and an object that started with
a handle is still held, or has been or is about to be deleted. -/
def CInv (w : Nat) (held : Nat → Prop) (c : CState) : Prop :=
  occupied c < 2 ^ w ∧
  ∀ a, c.heap.counter a = refs c a ∧
    c.heap.deleted a + lastOuts c a ≤ 1 ∧
    (c.heap.deleted a + lastOuts c a = 1 → refs c a = 0) ∧
    (held a → 0 < refs c a ∨ c.heap.deleted a + lastOuts c a = 1)

/-- Two threads on one object: both copy their handle while the other destroys
its own, then every handle is destroyed. -/
def raceSteps : List Step :=
  [Step.copyBegin 0, Step.destroyBegin 1, Step.copyEnd 0, Step.destroyEnd 1,
    Step.destroyBegin 0, Step.destroyBegin 2, Step.destroyEnd 2, Step.destroyEnd 0]

/-! ## Lemmas: arithmetic of the counter word -/

theorem word_succ (w c : Nat) (h : c + 1 < 2 ^ w) : (c + 1) % 2 ^ w = c + 1 :=
  Nat.mod_eq_of_lt h

theorem word_pred (w c : Nat) (h1 : 1 ≤ c) (h2 : c < 2 ^ w) : (c + 2 ^ w - 1) % 2 ^ w = c - 1 := by
  have e : c + 2 ^ w - 1 = (c - 1) + 2 ^ w := by omega
  rw [e, Nat.add_mod_right]
  exact Nat.mod_eq_of_lt (by omega)

theorem word_pred_zero (w : Nat) : (0 + 2 ^ w - 1) % 2 ^ w = 2 ^ w - 1 := by
  have : 0 < 2 ^ w := Nat.two_pow_pos w
  rw [Nat.zero_add]
  exact Nat.mod_eq_of_lt (by omega)

/-! ## Handle lists -/

theorem live_lookup (s : State) (h : Nat) (hl : isLive s h = true) :
    s.handles[h]? = some (Handle.live (get s h)) := by
  unfold isLive at hl
  unfold get
  split at hl <;> simp_all

theorem live_lt (s : State) (h : Nat) (hl : isLive s h = true) : h < s.handles.length := by
  have := live_lookup s h hl
  exact (List.getElem?_eq_some_iff.1 this).1

theorem count_set_live (l : List Handle) (h : Nat) (q p : Option Nat) (a : Nat)
    (hq : l[h]? = some (Handle.live q)) :
    (l.set h (Handle.live p)).count (Handle.live (some a)) + (if q = some a then 1 else 0)
      = l.count (Handle.live (some a)) + (if p = some a then 1 else 0) := by
  obtain ⟨hlt, hv⟩ := List.getElem?_eq_some_iff.1 hq
  rw [List.count_set _ _ _ _ hlt, hv]
  have hle : (if (Handle.live q == Handle.live (some a)) = true then 1 else 0)
      ≤ l.count (Handle.live (some a)) := by
    split
    · rename_i hc
      have hmem : Handle.live (some a) ∈ l := by
        have : Handle.live q = Handle.live (some a) := by simpa using hc
        rw [← this, ← hv]; exact List.getElem_mem _
      exact List.count_pos_iff.2 hmem
    · omega
  by_cases h1 : q = some a <;> by_cases h2 : p = some a <;> simp_all


theorem count_set_destroyed (l : List Handle) (h : Nat) (q : Option Nat) (a : Nat)
    (hq : l[h]? = some (Handle.live q)) :
    (l.set h Handle.destroyed).count (Handle.live (some a)) + (if q = some a then 1 else 0)
      = l.count (Handle.live (some a)) := by
  obtain ⟨hlt, hv⟩ := List.getElem?_eq_some_iff.1 hq
  rw [List.count_set _ _ _ _ hlt, hv]
  have hle : (if (Handle.live q == Handle.live (some a)) = true then 1 else 0)
      ≤ l.count (Handle.live (some a)) := by
    split
    · rename_i hc
      have hmem : Handle.live (some a) ∈ l := by
        have : Handle.live q = Handle.live (some a) := by simpa using hc
        rw [← this, ← hv]; exact List.getElem_mem _
      exact List.count_pos_iff.2 hmem
    · omega
  by_cases h1 : q = some a <;> simp_all

theorem countP_set_live (l : List Handle) (h : Nat) (q p : Option Nat)
    (hq : l[h]? = some (Handle.live q)) :
    (l.set h (Handle.live p)).countP (fun x => x != Handle.destroyed)
      = l.countP (fun x => x != Handle.destroyed) := by
  obtain ⟨hlt, hv⟩ := List.getElem?_eq_some_iff.1 hq
  rw [List.countP_set _ _ _ _ hlt, hv]
  have : 0 < l.countP (fun x => x != Handle.destroyed) :=
    List.countP_pos_iff.2 ⟨Handle.live q, by rw [← hv]; exact List.getElem_mem _, by simp⟩
  simp
  omega

theorem holders_le_liveCount (s : State) (a : Nat) : holders s a ≤ liveCount s := by
  unfold holders liveCount List.count
  apply List.countP_mono_left
  intro x _ hx
  have : x = Handle.live (some a) := by simpa using hx
  simp [this]

/-! ## Primitive steps on handles -/

theorem get_newHandle (s : State) (p : Option Nat) (k : Nat) :
    get (newHandle s p).1 k = if k = s.handles.length then p else get s k := by
  unfold get newHandle
  rcases Nat.lt_trichotomy k s.handles.length with h | h | h
  · simp [List.getElem?_append_left h, Nat.ne_of_lt h]
  · subst h; simp
  · have h1 : ¬ k = s.handles.length := by omega
    have h2 : s.handles.length + 1 ≤ k := h
    simp [h1, List.getElem?_eq_none, h2, Nat.le_of_lt h]

theorem isLive_newHandle (s : State) (p : Option Nat) (k : Nat) :
    isLive (newHandle s p).1 k = if k = s.handles.length then true else isLive s k := by
  unfold isLive newHandle
  rcases Nat.lt_trichotomy k s.handles.length with h | h | h
  · simp [List.getElem?_append_left h, Nat.ne_of_lt h]
  · subst h; simp
  · have h1 : ¬ k = s.handles.length := by omega
    have h2 : s.handles.length + 1 ≤ k := h
    simp [h1, List.getElem?_eq_none, h2, Nat.le_of_lt h]

theorem holders_newHandle (s : State) (p : Option Nat) (a : Nat) :
    holders (newHandle s p).1 a = holders s a + (if p = some a then 1 else 0) := by
  unfold holders newHandle
  by_cases h : p = some a <;> simp [List.count_singleton, h]

theorem liveCount_newHandle (s : State) (p : Option Nat) :
    liveCount (newHandle s p).1 = liveCount s + 1 := by
  unfold liveCount newHandle
  simp

theorem get_setPtr (s : State) (h : Nat) (p : Option Nat) (k : Nat) (hl : isLive s h = true) :
    get (setPtr s h p) k = if k = h then p else get s k := by
  have hlt := live_lt s h hl
  unfold get setPtr
  by_cases e : k = h
  · subst e; simp [List.getElem?_set_self, hlt]
  · have e2 : h ≠ k := fun x => e x.symm
    simp [e, List.getElem?_set_ne e2]

theorem isLive_setPtr (s : State) (h : Nat) (p : Option Nat) (k : Nat) (hl : isLive s h = true) :
    isLive (setPtr s h p) k = isLive s k := by
  have hlt := live_lt s h hl
  by_cases e : k = h
  · subst e
    rw [hl]
    unfold isLive setPtr
    simp [List.getElem?_set_self, hlt]
  · have e2 : h ≠ k := fun x => e x.symm
    unfold isLive setPtr
    simp [List.getElem?_set_ne e2]

theorem holders_setPtr (s : State) (h : Nat) (p : Option Nat) (a : Nat) (hl : isLive s h = true) :
    holders (setPtr s h p) a + (if get s h = some a then 1 else 0)
      = holders s a + (if p = some a then 1 else 0) :=
  count_set_live s.handles h (get s h) p a (live_lookup s h hl)

theorem liveCount_setPtr (s : State) (h : Nat) (p : Option Nat) (hl : isLive s h = true) :
    liveCount (setPtr s h p) = liveCount s :=
  countP_set_live s.handles h (get s h) p (live_lookup s h hl)

theorem get_swap (s : State) (a b k : Nat) (ha : isLive s a = true) (hb : isLive s b = true) :
    get (swap s a b) k = if k = b then get s a else if k = a then get s b else get s k := by
  unfold swap
  have hb1 : isLive (setPtr s a (get s b)) b = true := by rw [isLive_setPtr s a _ b ha]; exact hb
  simp only [get_setPtr _ b _ k hb1, get_setPtr s a _ k ha]

theorem isLive_swap (s : State) (a b k : Nat) (ha : isLive s a = true) (hb : isLive s b = true) :
    isLive (swap s a b) k = isLive s k := by
  unfold swap
  have hb1 : isLive (setPtr s a (get s b)) b = true := by rw [isLive_setPtr s a _ b ha]; exact hb
  simp only [isLive_setPtr _ b _ k hb1, isLive_setPtr s a _ k ha]

theorem holders_swap (s : State) (a b x : Nat) (ha : isLive s a = true) (hb : isLive s b = true) :
    holders (swap s a b) x = holders s x := by
  show holders (setPtr (setPtr s a (get s b)) b (get s a)) x = holders s x
  have hb1 : isLive (setPtr s a (get s b)) b = true := by rw [isLive_setPtr s a _ b ha]; exact hb
  have e1 := holders_setPtr s a (get s b) x ha
  have e2 := holders_setPtr (setPtr s a (get s b)) b (get s a) x hb1
  rw [get_setPtr s a _ b ha] at e2
  by_cases hab : b = a
  · subst hab; simp only [if_true] at e2; omega
  · simp only [hab, if_false] at e2; omega

theorem liveCount_swap (s : State) (a b : Nat) (ha : isLive s a = true) (hb : isLive s b = true) :
    liveCount (swap s a b) = liveCount s := by
  unfold swap
  have hb1 : isLive (setPtr s a (get s b)) b = true := by rw [isLive_setPtr s a _ b ha]; exact hb
  rw [liveCount_setPtr _ b _ hb1, liveCount_setPtr s a _ ha]

theorem heap_swap (s : State) (a b : Nat) : (swap s a b).heap = s.heap := rfl

theorem heap_dtor (w : Nat) (s : State) (h : Nat) :
    (dtor w s h).heap = relOpt w s.heap (get s h) := by
  unfold dtor relOpt
  cases get s h <;> rfl

theorem holders_dtor (w : Nat) (s : State) (h a : Nat) (hl : isLive s h = true) :
    holders (dtor w s h) a + (if get s h = some a then 1 else 0) = holders s a :=
  count_set_destroyed s.handles h (get s h) a (live_lookup s h hl)

theorem get_dtor (w : Nat) (s : State) (h k : Nat) (hl : isLive s h = true) :
    get (dtor w s h) k = if k = h then none else get s k := by
  have hlt := live_lt s h hl
  unfold get dtor
  by_cases e : k = h
  · subst e; simp [List.getElem?_set_self, hlt]
  · have e2 : h ≠ k := fun x => e x.symm
    simp [e, List.getElem?_set_ne e2]

theorem isLive_dtor (w : Nat) (s : State) (h k : Nat) (hl : isLive s h = true) :
    isLive (dtor w s h) k = if k = h then false else isLive s k := by
  have hlt := live_lt s h hl
  unfold isLive dtor
  by_cases e : k = h
  · subst e; simp [List.getElem?_set_self, hlt]
  · have e2 : h ≠ k := fun x => e x.symm
    simp [e, List.getElem?_set_ne e2]

theorem heap_ctor_raw (w : Nat) (s : State) (p : Option Nat) :
    (ctor_raw w s p true).1.heap = addOpt w s.heap p := by
  unfold ctor_raw addOpt
  cases p <;> rfl

theorem handles_ctor_raw (w : Nat) (s : State) (p : Option Nat) (f : Bool) :
    (ctor_raw w s p f).1.handles = (newHandle s p).1.handles ∧
      (ctor_raw w s p f).2 = s.handles.length := by
  unfold ctor_raw
  cases p <;> cases f <;> exact ⟨rfl, rfl⟩

theorem counter_addOpt (w : Nat) (m : Heap) (p : Option Nat) (a : Nat) :
    (addOpt w m p).counter a = if p = some a then (m.counter a + 1) % 2 ^ w else m.counter a := by
  cases p with
  | none => simp [addOpt]
  | some b =>
    by_cases h : a = b
    · subst h; simp [addOpt, intrusive_ptr_add_ref]
    · have h2 : ¬ b = a := fun x => h x.symm
      simp [addOpt, intrusive_ptr_add_ref, h, h2]

theorem deleted_addOpt (w : Nat) (m : Heap) (p : Option Nat) (a : Nat) :
    (addOpt w m p).deleted a = m.deleted a := by
  cases p <;> rfl

theorem counter_relOpt (w : Nat) (m : Heap) (q : Option Nat) (a : Nat) :
    (relOpt w m q).counter a
      = if q = some a then (m.counter a + 2 ^ w - 1) % 2 ^ w else m.counter a := by
  cases q with
  | none => simp [relOpt]
  | some b =>
    by_cases h : a = b
    · subst h
      simp only [relOpt, intrusive_ptr_release]
      split <;> simp
    · have h2 : ¬ b = a := fun x => h x.symm
      simp only [relOpt, intrusive_ptr_release]
      split <;> simp [h, h2]

theorem deleted_relOpt (w : Nat) (m : Heap) (q : Option Nat) (a : Nat) :
    (relOpt w m q).deleted a
      = if q = some a ∧ m.counter a = 1 then m.deleted a + 1 else m.deleted a := by
  cases q with
  | none => simp [relOpt]
  | some b =>
    by_cases h : a = b
    · subst h
      simp only [relOpt, intrusive_ptr_release]
      split <;> simp_all
    · have h2 : ¬ b = a := fun x => h x.symm
      simp only [relOpt, intrusive_ptr_release]
      split <;> simp [h, h2]

/-- What one operation with a given net effect does to the object `a`. -/
theorem effect_step (w : Nat) (s t : State) (p q : Option Nat) (hinv : Inv s)
    (hb0 : liveCount s < 2 ^ w) (hb1 : p ≠ none → liveCount s + 1 < 2 ^ w)
    (hp : ∀ a, p = some a → s.heap.deleted a = 0)
    (hq : ∀ a, q = some a → 0 < holders s a)
    (he : Effect w s t p q) (a : Nat) :
    ((t.heap.deleted a = 0 ∧ t.heap.counter a = holders t a) ∨
      (t.heap.deleted a = 1 ∧ t.heap.counter a = 0 ∧ holders t a = 0)) ∧
    (t.heap.deleted a
      = s.heap.deleted a + (if s.heap.counter a = 1 ∧ t.heap.counter a = 0 then 1 else 0)) ∧
    (0 < holders s a → holders t a = 0 → t.heap.deleted a = 1) := by
  have hle := holders_le_liveCount s a
  have hh := he.holders a
  rw [he.heap, counter_relOpt, deleted_relOpt, counter_addOpt, deleted_addOpt]
  have hp1 := hp a
  have hq1 := hq a
  rcases hinv a with ⟨i1, i2⟩ | ⟨i1, i2, i3⟩
  · by_cases hpa : p = some a <;> by_cases hqa : q = some a
    · have hpos := hq1 hqa
      have hb := hb1 (by rw [hpa]; simp)
      simp only [hpa, hqa, if_true, true_and] at hh ⊢
      rw [word_succ w _ (by omega), word_pred w _ (by omega) (by omega)]
      have k1 : ¬ s.heap.counter a + 1 = 1 := by omega
      have k2 : ¬ (s.heap.counter a = 1 ∧ s.heap.counter a + 1 - 1 = 0) := by omega
      rw [if_neg k1, if_neg k2]
      exact ⟨Or.inl ⟨i1, by omega⟩, rfl, by omega⟩
    · have hb := hb1 (by rw [hpa]; simp)
      simp only [hpa, hqa, if_true, if_false, false_and] at hh ⊢
      rw [word_succ w _ (by omega)]
      have k2 : ¬ (s.heap.counter a = 1 ∧ s.heap.counter a + 1 = 0) := by omega
      rw [if_neg k2]
      exact ⟨Or.inl ⟨i1, by omega⟩, rfl, by omega⟩
    · have hpos := hq1 hqa
      simp only [hpa, hqa, if_true, if_false, true_and] at hh ⊢
      rw [word_pred w _ (by omega) (by omega)]
      by_cases h1 : s.heap.counter a = 1
      · have k2 : s.heap.counter a = 1 ∧ s.heap.counter a - 1 = 0 := ⟨h1, by omega⟩
        rw [if_pos h1, if_pos k2]
        exact ⟨Or.inr ⟨by omega, by omega, by omega⟩, rfl, by omega⟩
      · have k2 : ¬ (s.heap.counter a = 1 ∧ s.heap.counter a - 1 = 0) := fun x => h1 x.1
        rw [if_neg h1, if_neg k2]
        exact ⟨Or.inl ⟨i1, by omega⟩, rfl, by omega⟩
    · simp only [hpa, hqa, if_false, false_and] at hh ⊢
      have k2 : ¬ (s.heap.counter a = 1 ∧ s.heap.counter a = 0) := by omega
      rw [if_neg k2]
      exact ⟨Or.inl ⟨i1, by omega⟩, rfl, by omega⟩
  · have hpa : ¬ p = some a := fun x => by have := hp1 x; omega
    have hqa : ¬ q = some a := fun x => by have := hq1 x; omega
    simp only [hpa, hqa, if_false, false_and] at hh ⊢
    have k2 : ¬ (s.heap.counter a = 1 ∧ s.heap.counter a = 0) := by omega
    rw [if_neg k2]
    exact ⟨Or.inr ⟨i1, i2, by omega⟩, rfl, by omega⟩

theorem get_congr (s t : State) (h : s.handles = t.handles) (k : Nat) : get s k = get t k := by
  unfold get; rw [h]

theorem isLive_congr (s t : State) (h : s.handles = t.handles) (k : Nat) :
    isLive s k = isLive t k := by
  unfold isLive; rw [h]

theorem holders_congr (s t : State) (h : s.handles = t.handles) (a : Nat) :
    holders s a = holders t a := by
  unfold holders; rw [h]

theorem liveCount_congr (s t : State) (h : s.handles = t.handles) :
    liveCount s = liveCount t := by
  unfold liveCount; rw [h]

theorem not_live_length (s : State) : isLive s s.handles.length = false := by
  unfold isLive
  simp

theorem ne_length_of_live (s : State) (h : Nat) (hl : isLive s h = true) :
    h ≠ s.handles.length :=
  Nat.ne_of_lt (live_lt s h hl)

theorem holders_pos_of_get (s : State) (h a : Nat) (hg : get s h = some a) :
    0 < holders s a := by
  unfold get at hg
  unfold holders
  split at hg
  · rename_i p hp
    subst hg
    obtain ⟨hlt, hv⟩ := List.getElem?_eq_some_iff.1 hp
    exact List.count_pos_iff.2 (by rw [← hv]; exact List.getElem_mem _)
  · cases hg

theorem not_deleted_of_get (s : State) (hinv : Inv s) (h a : Nat) (hg : get s h = some a) :
    s.heap.deleted a = 0 := by
  have := holders_pos_of_get s h a hg
  rcases hinv a with ⟨i1, _⟩ | ⟨_, _, i3⟩
  · exact i1
  · omega

theorem effect_ctor_default (w : Nat) (s : State) :
    Effect w s (ctor_default s).1 none none :=
  ⟨rfl, fun a => by unfold ctor_default; rw [holders_newHandle]; simp⟩

theorem effect_ctor_raw (w : Nat) (s : State) (p : Option Nat) :
    Effect w s (ctor_raw w s p true).1 p none := by
  refine ⟨heap_ctor_raw w s p, fun a => ?_⟩
  rw [holders_congr _ _ (handles_ctor_raw w s p true).1, holders_newHandle]
  simp

theorem effect_ctor_move (w : Nat) (s : State) (r : Nat) (hr : isLive s r = true) :
    Effect w s (ctor_move s r).1 none none := by
  refine ⟨rfl, fun a => ?_⟩
  unfold ctor_move
  rw [holders_newHandle]
  have := holders_setPtr s r none a hr
  simp at this ⊢
  omega

theorem effect_swap (w : Nat) (s : State) (a b : Nat) (ha : isLive s a = true)
    (hb : isLive s b = true) : Effect w s (swap s a b) none none :=
  ⟨rfl, fun x => by rw [holders_swap s a b x ha hb]⟩

theorem effect_dtor (w : Nat) (s : State) (h : Nat) (hl : isLive s h = true) :
    Effect w s (dtor w s h) none (get s h) :=
  ⟨heap_dtor w s h, fun a => by rw [holders_dtor w s h a hl]; simp⟩

/-- The pattern `intrusive_ptr(...).swap(*this)`: the temporary `t` built in
state `s1` trades its pointer with `h` and is then destroyed. -/
theorem effect_temp (w : Nat) (s s1 : State) (p : Option Nat) (t h : Nat)
    (he : Effect w s s1 p none) (ht : isLive s1 t = true) (hh : isLive s1 h = true)
    (hne : t ≠ h) : Effect w s (dtor w (swap s1 t h) t) p (get s1 h) := by
  have hg : get (swap s1 t h) t = get s1 h := by
    rw [get_swap s1 t h t ht hh]; simp [hne]
  have hl : isLive (swap s1 t h) t = true := by rw [isLive_swap s1 t h t ht hh]; exact ht
  refine ⟨?_, fun a => ?_⟩
  · rw [heap_dtor, hg, heap_swap, he.heap]; rfl
  · have e1 := holders_dtor w (swap s1 t h) t a hl
    rw [hg, holders_swap s1 t h a ht hh] at e1
    have e2 := he.holders a
    simp at e2
    omega


theorem live_ctor_raw (w : Nat) (s : State) (p : Option Nat) (f : Bool) (k : Nat) :
    isLive (ctor_raw w s p f).1 k = if k = s.handles.length then true else isLive s k := by
  rw [isLive_congr _ _ (handles_ctor_raw w s p f).1, isLive_newHandle]

theorem get_ctor_raw (w : Nat) (s : State) (p : Option Nat) (f : Bool) (k : Nat) :
    get (ctor_raw w s p f).1 k = if k = s.handles.length then p else get s k := by
  rw [get_congr _ _ (handles_ctor_raw w s p f).1, get_newHandle]

theorem effect_assign_raw (w : Nat) (s : State) (h : Nat) (p : Option Nat)
    (hl : isLive s h = true) : Effect w s (assign_raw w s h p) p (get s h) := by
  have hne := ne_length_of_live s h hl
  have e := effect_temp w s (ctor_raw w s p true).1 p (ctor_raw w s p true).2 h
    (effect_ctor_raw w s p)
    (by rw [(handles_ctor_raw w s p true).2, live_ctor_raw]; simp)
    (by rw [live_ctor_raw]; simp [hne, hl])
    (by rw [(handles_ctor_raw w s p true).2]; exact fun x => hne x.symm)
  rw [get_ctor_raw, if_neg hne] at e
  exact e

theorem effect_reset (w : Nat) (s : State) (h : Nat)
    (hl : isLive s h = true) : Effect w s (reset w s h) none (get s h) := by
  have hne := ne_length_of_live s h hl
  have e := effect_temp w s (ctor_default s).1 none (ctor_default s).2 h
    (effect_ctor_default w s)
    (by unfold ctor_default; rw [isLive_newHandle]; simp [newHandle])
    (by unfold ctor_default; rw [isLive_newHandle]; simp [hne, hl])
    (by unfold ctor_default; exact fun x => hne x.symm)
  unfold ctor_default at e
  rw [get_newHandle, if_neg hne] at e
  exact e

theorem effect_assign_move (w : Nat) (s : State) (h r : Nat)
    (hl : isLive s h = true) (hr : isLive s r = true) :
    Effect w s (assign_move w s h r) none (if h = r then none else get s h) := by
  have hne := ne_length_of_live s h hl
  have hlen : (setPtr s r none).handles.length = s.handles.length := by simp [setPtr]
  have e := effect_temp w s (ctor_move s r).1 none (ctor_move s r).2 h
    (effect_ctor_move w s r hr)
    (by unfold ctor_move; rw [isLive_newHandle]; simp [newHandle])
    (by unfold ctor_move; rw [isLive_newHandle, hlen, isLive_setPtr s r none h hr]; simp [hne, hl])
    (by unfold ctor_move; simp only [newHandle]; rw [hlen]; exact fun x => hne x.symm)
  unfold ctor_move at e
  rw [get_newHandle, hlen, if_neg hne, get_setPtr s r none h hr] at e
  exact e

theorem countP_set_destroyed (l : List Handle) (h : Nat) (q : Option Nat)
    (hq : l[h]? = some (Handle.live q)) :
    (l.set h Handle.destroyed).countP (fun x => x != Handle.destroyed) + 1
      = l.countP (fun x => x != Handle.destroyed) := by
  obtain ⟨hlt, hv⟩ := List.getElem?_eq_some_iff.1 hq
  rw [List.countP_set _ _ _ _ hlt, hv]
  have : 0 < l.countP (fun x => x != Handle.destroyed) :=
    List.countP_pos_iff.2 ⟨Handle.live q, by rw [← hv]; exact List.getElem_mem _, by simp⟩
  simp
  omega

theorem liveCount_dtor (w : Nat) (s : State) (h : Nat) (hl : isLive s h = true) :
    liveCount (dtor w s h) + 1 = liveCount s :=
  countP_set_destroyed s.handles h (get s h) (live_lookup s h hl)

theorem liveCount_ctor_raw (w : Nat) (s : State) (p : Option Nat) (f : Bool) :
    liveCount (ctor_raw w s p f).1 = liveCount s + 1 := by
  rw [liveCount_congr _ _ (handles_ctor_raw w s p f).1, liveCount_newHandle]

theorem liveCount_ctor_move (s : State) (r : Nat) (hr : isLive s r = true) :
    liveCount (ctor_move s r).1 = liveCount s + 1 := by
  unfold ctor_move
  rw [liveCount_newHandle, liveCount_setPtr s r none hr]

theorem liveCount_temp (w : Nat) (s1 : State) (t h : Nat)
    (ht : isLive s1 t = true) (hh : isLive s1 h = true) :
    liveCount (dtor w (swap s1 t h) t) + 1 = liveCount s1 := by
  have hl : isLive (swap s1 t h) t = true := by rw [isLive_swap s1 t h t ht hh]; exact ht
  rw [liveCount_dtor w _ t hl, liveCount_swap s1 t h ht hh]

theorem liveCount_reset_raw (w : Nat) (s : State) (h : Nat) (p : Option Nat) (f : Bool)
    (hl : isLive s h = true) : liveCount (reset_raw w s h p f) = liveCount s := by
  have hne := ne_length_of_live s h hl
  have e := liveCount_temp w (ctor_raw w s p f).1 (ctor_raw w s p f).2 h
    (by rw [(handles_ctor_raw w s p f).2, live_ctor_raw]; simp)
    (by rw [live_ctor_raw]; simp [hne, hl])
  rw [liveCount_ctor_raw] at e
  show liveCount (dtor w (swap (ctor_raw w s p f).1 (ctor_raw w s p f).2 h)
    (ctor_raw w s p f).2) = liveCount s
  omega

theorem liveCount_reset (w : Nat) (s : State) (h : Nat)
    (hl : isLive s h = true) : liveCount (reset w s h) = liveCount s := by
  have hne := ne_length_of_live s h hl
  have e := liveCount_temp w (ctor_default s).1 (ctor_default s).2 h
    (by unfold ctor_default; rw [isLive_newHandle]; simp [newHandle])
    (by unfold ctor_default; rw [isLive_newHandle]; simp [hne, hl])
  unfold ctor_default at e
  rw [liveCount_newHandle] at e
  show liveCount (dtor w (swap (newHandle s none).1 (newHandle s none).2 h)
    (newHandle s none).2) = liveCount s
  omega

theorem liveCount_assign_move (w : Nat) (s : State) (h r : Nat)
    (hl : isLive s h = true) (hr : isLive s r = true) :
    liveCount (assign_move w s h r) = liveCount s := by
  have hne := ne_length_of_live s h hl
  have hlen : (setPtr s r none).handles.length = s.handles.length := by simp [setPtr]
  have e := liveCount_temp w (ctor_move s r).1 (ctor_move s r).2 h
    (by unfold ctor_move; rw [isLive_newHandle]; simp [newHandle])
    (by unfold ctor_move; rw [isLive_newHandle, hlen, isLive_setPtr s r none h hr]; simp [hne, hl])
  rw [liveCount_ctor_move s r hr] at e
  show liveCount (dtor w (swap (ctor_move s r).1 (ctor_move s r).2 h)
    (ctor_move s r).2) = liveCount s
  omega

theorem validPtr_spec (s : State) (p : Option Nat) (h : validPtr s p = true) (a : Nat)
    (hp : p = some a) : s.heap.deleted a = 0 := by
  subst hp
  simpa [validPtr] using h

/-- Every client operation has a net effect of the form "acquire `p`, then
release `q`", where `p` is not deleted and `q` is held by a live handle. -/
theorem op_effect (w : Nat) (s : State) (op : Op) (hinv : Inv s) (hargs : op.argsOk s = true) :
    ∃ p q, (∀ a, p = some a → s.heap.deleted a = 0) ∧ (∀ a, q = some a → 0 < holders s a) ∧
      (p ≠ none → op.constructs = true) ∧ Effect w s (op.apply w s) p q := by
  cases op with
  | defaultCtor =>
    exact ⟨none, none, by simp, by simp, by simp, effect_ctor_default w s⟩
  | rawCtor p =>
    exact ⟨p, none, validPtr_spec s p hargs, by simp, fun _ => rfl, effect_ctor_raw w s p⟩
  | copyCtor r =>
    exact ⟨get s r, none, fun a => not_deleted_of_get s hinv r a, by simp, fun _ => rfl,
      effect_ctor_raw w s (get s r)⟩
  | moveCtor r =>
    exact ⟨none, none, by simp, by simp, by simp, effect_ctor_move w s r hargs⟩
  | copyAssign d r =>
    simp only [Op.argsOk, Bool.and_eq_true] at hargs
    exact ⟨get s r, get s d, fun a => not_deleted_of_get s hinv r a,
      fun a => holders_pos_of_get s d a, fun _ => rfl, effect_assign_raw w s d (get s r) hargs.1⟩
  | moveAssign d r =>
    simp only [Op.argsOk, Bool.and_eq_true] at hargs
    refine ⟨none, if d = r then none else get s d, by simp, fun a ha => ?_, by simp,
      effect_assign_move w s d r hargs.1 hargs.2⟩
    by_cases e : d = r
    · simp [e] at ha
    · rw [if_neg e] at ha; exact holders_pos_of_get s d a ha
  | rawAssign d p =>
    simp only [Op.argsOk, Bool.and_eq_true] at hargs
    exact ⟨p, get s d, validPtr_spec s p hargs.2, fun a => holders_pos_of_get s d a,
      fun _ => rfl, effect_assign_raw w s d p hargs.1⟩
  | reset h =>
    exact ⟨none, get s h, by simp, fun a => holders_pos_of_get s h a, by simp,
      effect_reset w s h hargs⟩
  | resetRaw h p =>
    simp only [Op.argsOk, Bool.and_eq_true] at hargs
    exact ⟨p, get s h, validPtr_spec s p hargs.2, fun a => holders_pos_of_get s h a,
      fun _ => rfl, effect_assign_raw w s h p hargs.1⟩
  | swap a b =>
    simp only [Op.argsOk, Bool.and_eq_true] at hargs
    exact ⟨none, none, by simp, by simp, by simp, effect_swap w s a b hargs.1 hargs.2⟩
  | destroy h =>
    exact ⟨none, get s h, by simp, fun a => holders_pos_of_get s h a, by simp,
      effect_dtor w s h hargs⟩

theorem liveCount_apply (w : Nat) (s : State) (op : Op) (hargs : op.argsOk s = true) :
    liveCount (op.apply w s) ≤ liveCount s + (if op.constructs = true then 1 else 0) := by
  cases op with
  | defaultCtor => simp [Op.apply, Op.constructs, ctor_default, liveCount_newHandle]
  | rawCtor p => simp [Op.apply, Op.constructs, liveCount_ctor_raw]
  | copyCtor r => simp [Op.apply, Op.constructs, ctor_copy, liveCount_ctor_raw]
  | moveCtor r => simp [Op.apply, Op.constructs, liveCount_ctor_move s r hargs]
  | copyAssign d r =>
    simp only [Op.argsOk, Bool.and_eq_true] at hargs
    have := liveCount_reset_raw w s d (get s r) true hargs.1
    simp only [Op.apply, Op.constructs]
    show liveCount (reset_raw w s d (get s r) true) ≤ _
    omega
  | moveAssign d r =>
    simp only [Op.argsOk, Bool.and_eq_true] at hargs
    have := liveCount_assign_move w s d r hargs.1 hargs.2
    simp only [Op.apply, Op.constructs]
    omega
  | rawAssign d p =>
    simp only [Op.argsOk, Bool.and_eq_true] at hargs
    have := liveCount_reset_raw w s d p true hargs.1
    simp only [Op.apply, Op.constructs]
    show liveCount (reset_raw w s d p true) ≤ _
    omega
  | reset h =>
    have := liveCount_reset w s h hargs
    simp only [Op.apply, Op.constructs]
    omega
  | resetRaw h p =>
    simp only [Op.argsOk, Bool.and_eq_true] at hargs
    have := liveCount_reset_raw w s h p true hargs.1
    simp only [Op.apply, Op.constructs]
    omega
  | swap a b =>
    simp only [Op.argsOk, Bool.and_eq_true] at hargs
    have := liveCount_swap s a b hargs.1 hargs.2
    simp only [Op.apply, Op.constructs]
    simp [this]
  | destroy h =>
    have := liveCount_dtor w s h hargs
    simp only [Op.apply, Op.constructs]
    simp
    omega

/-- What one client operation does to the object `a`, in a state that satisfies
the counting invariant. -/
theorem op_step (w : Nat) (s : State) (op : Op) (hinv : Inv s) (hb : liveCount s < 2 ^ w)
    (hok : op.ok w s) (a : Nat) :
    ((op.apply w s).heap.deleted a = 0 ∧ (op.apply w s).heap.counter a = holders (op.apply w s) a ∨
      (op.apply w s).heap.deleted a = 1 ∧ (op.apply w s).heap.counter a = 0 ∧
        holders (op.apply w s) a = 0) ∧
    ((op.apply w s).heap.deleted a = s.heap.deleted a +
      (if s.heap.counter a = 1 ∧ (op.apply w s).heap.counter a = 0 then 1 else 0)) ∧
    (0 < holders s a → holders (op.apply w s) a = 0 → (op.apply w s).heap.deleted a = 1) := by
  obtain ⟨p, q, hp, hq, hc, he⟩ := op_effect w s op hinv hok.1
  exact effect_step w s _ p q hinv hb (fun x => hok.2 (hc x)) hp hq he a

theorem inv_init : Inv State.init := by
  intro a
  exact Or.inl ⟨rfl, rfl⟩

theorem inv_run (w : Nat) (ops : List Op) : ∀ s : State, Inv s → liveCount s < 2 ^ w →
    okRun w s ops → Inv (run w s ops) ∧ liveCount (run w s ops) < 2 ^ w := by
  induction ops with
  | nil => intro s hinv hb _; exact ⟨hinv, hb⟩
  | cons op ops ih =>
    intro s hinv hb hok
    have h1 : Inv (op.apply w s) := fun a => (op_step w s op hinv hb hok.1 a).1
    have h2 : liveCount (op.apply w s) < 2 ^ w := by
      have := liveCount_apply w s op hok.1.1
      by_cases hc : op.constructs = true
      · have := hok.1.2 hc
        simp only [hc, if_true] at *
        omega
      · simp only [hc] at this
        simp at this
        omega
    exact ih (op.apply w s) h1 h2 hok.2

theorem init_room (w : Nat) : liveCount State.init < 2 ^ w := Nat.two_pow_pos w

theorem get_temp (w : Nat) (s1 : State) (t h k : Nat)
    (ht : isLive s1 t = true) (hh : isLive s1 h = true) :
    get (dtor w (swap s1 t h) t) k
      = if k = t then none else if k = h then get s1 t else get s1 k := by
  have hl : isLive (swap s1 t h) t = true := by rw [isLive_swap s1 t h t ht hh]; exact ht
  rw [get_dtor w _ t k hl, get_swap s1 t h k ht hh]
  by_cases e1 : k = t
  · simp [e1]
  · simp [e1]

theorem get_reset_raw (w : Nat) (s : State) (h : Nat) (p : Option Nat) (f : Bool) (k : Nat)
    (hl : isLive s h = true) :
    get (reset_raw w s h p f) k
      = if k = s.handles.length then none else if k = h then p else get s k := by
  have hne := ne_length_of_live s h hl
  have h2 := (handles_ctor_raw w s p f).2
  have e := get_temp w (ctor_raw w s p f).1 (ctor_raw w s p f).2 h k
    (by rw [h2, live_ctor_raw]; simp)
    (by rw [live_ctor_raw]; simp [hne, hl])
  show get (dtor w (swap (ctor_raw w s p f).1 (ctor_raw w s p f).2 h)
    (ctor_raw w s p f).2) k = _
  rw [e]
  simp only [get_ctor_raw, h2, if_true]
  by_cases e1 : k = s.handles.length
  · simp [e1]
  · simp [e1]

theorem get_ctor_move (s : State) (r k : Nat) (hr : isLive s r = true) :
    get (ctor_move s r).1 k
      = if k = s.handles.length then get s r else if k = r then none else get s k := by
  have hlen : (setPtr s r none).handles.length = s.handles.length := by simp [setPtr]
  show get (newHandle (setPtr s r none) (get s r)).1 k = _
  rw [get_newHandle, hlen, get_setPtr s r none k hr]

theorem live_ctor_move (s : State) (r k : Nat) (hr : isLive s r = true) :
    isLive (ctor_move s r).1 k = if k = s.handles.length then true else isLive s k := by
  have hlen : (setPtr s r none).handles.length = s.handles.length := by simp [setPtr]
  show isLive (newHandle (setPtr s r none) (get s r)).1 k = _
  rw [isLive_newHandle, hlen, isLive_setPtr s r none k hr]

theorem new_ctor_move (s : State) (r : Nat) : (ctor_move s r).2 = s.handles.length := by
  simp [ctor_move, newHandle, setPtr]

theorem get_assign_move (w : Nat) (s : State) (h r k : Nat)
    (hl : isLive s h = true) (hr : isLive s r = true) :
    get (assign_move w s h r) k
      = if k = s.handles.length then none else if k = h then get s r
        else if k = r then none else get s k := by
  have hne := ne_length_of_live s h hl
  have h2 := new_ctor_move s r
  have e := get_temp w (ctor_move s r).1 (ctor_move s r).2 h k
    (by rw [h2, live_ctor_move s r _ hr]; simp)
    (by rw [live_ctor_move s r _ hr]; simp [hne, hl])
  show get (dtor w (swap (ctor_move s r).1 (ctor_move s r).2 h) (ctor_move s r).2) k = _
  rw [e]
  simp only [get_ctor_move s r _ hr, h2, if_true]
  by_cases e1 : k = s.handles.length
  · simp [e1]
  · simp [e1]

theorem heap_reset_raw_false (w : Nat) (s : State) (h : Nat) (p : Option Nat)
    (hl : isLive s h = true) :
    (reset_raw w s h p false).heap = relOpt w s.heap (get s h) := by
  have hne := ne_length_of_live s h hl
  have hne2 : ¬ s.handles.length = h := fun x => hne x.symm
  have h2 := (handles_ctor_raw w s p false).2
  have hg : get (swap (ctor_raw w s p false).1 (ctor_raw w s p false).2 h)
      (ctor_raw w s p false).2 = get s h := by
    rw [get_swap _ _ _ _ (by rw [h2, live_ctor_raw]; simp)
      (by rw [live_ctor_raw]; simp [hne, hl])]
    simp only [get_ctor_raw, h2, if_true, if_neg hne2, if_neg hne]
  show (dtor w (swap (ctor_raw w s p false).1 (ctor_raw w s p false).2 h)
    (ctor_raw w s p false).2).heap = _
  rw [heap_dtor, hg, heap_swap]
  cases p <;> rfl

/-- Counter of `a` after "acquire `p`, then release `q`" when no word wraps. -/
theorem counter_effect (w : Nat) (m : Heap) (p q : Option Nat) (a : Nat)
    (hp : p = some a → m.counter a + 1 < 2 ^ w)
    (hq : q = some a → 1 ≤ m.counter a ∧ m.counter a < 2 ^ w) :
    (relOpt w (addOpt w m p) q).counter a + (if q = some a then 1 else 0)
      = m.counter a + (if p = some a then 1 else 0) := by
  rw [counter_relOpt, counter_addOpt]
  by_cases hpa : p = some a <;> by_cases hqa : q = some a
  · have := hp hpa
    simp only [hpa, hqa, if_true]
    rw [word_succ w _ this, word_pred w _ (by omega) (by omega)]
    omega
  · have := hp hpa
    simp only [hpa, hqa, if_true, if_false]
    rw [word_succ w _ this]
  · have := hq hqa
    simp only [hpa, hqa, if_true, if_false]
    rw [word_pred w _ this.1 this.2]
    omega
  · simp only [hpa, hqa, if_false]

/-- Deletions of `a` after "acquire `p`, then release `q`" when no word wraps. -/
theorem deleted_effect (w : Nat) (m : Heap) (p q : Option Nat) (a : Nat)
    (hp : p = some a → m.counter a + 1 < 2 ^ w) (hq : q = some a → 1 ≤ m.counter a) :
    (relOpt w (addOpt w m p) q).deleted a
      = m.deleted a + (if q = some a ∧ p ≠ some a ∧ m.counter a = 1 then 1 else 0) := by
  rw [deleted_relOpt, counter_addOpt, deleted_addOpt]
  by_cases hpa : p = some a <;> by_cases hqa : q = some a
  · have := hp hpa
    have := hq hqa
    simp only [hpa, hqa, if_true]
    rw [word_succ w _ (hp hpa)]
    simp
    omega
  · simp [hpa, hqa]
  · simp only [hpa, hqa, if_false, true_and, ne_eq, not_false_eq_true]
    split <;> rfl
  · simp [hpa, hqa]

/-- Acquiring and then releasing the same object restores the heap, also when
the increment wraps. -/
theorem add_then_release (w : Nat) (m : Heap) (a : Nat) (h1 : 1 ≤ m.counter a)
    (h2 : m.counter a < 2 ^ w) :
    intrusive_ptr_release w (intrusive_ptr_add_ref w m a) a = m := by
  have key : ((m.counter a + 1) % 2 ^ w + 2 ^ w - 1) % 2 ^ w = m.counter a ∧
      (m.counter a + 1) % 2 ^ w ≠ 1 := by
    by_cases hov : m.counter a + 1 < 2 ^ w
    · rw [word_succ w _ hov, word_pred w _ (by omega) (by omega)]
      omega
    · have e : m.counter a + 1 = 2 ^ w := by omega
      rw [e, Nat.mod_self, word_pred_zero]
      omega
  have hc : (intrusive_ptr_add_ref w m a).counter a = (m.counter a + 1) % 2 ^ w := by
    simp [intrusive_ptr_add_ref]
  unfold intrusive_ptr_release
  simp only [hc, if_neg key.2, key.1]
  cases m with
  | mk c d =>
    simp only [intrusive_ptr_add_ref]
    congr 1
    funext b
    by_cases hb : b = a
    · simp [hb]
    · simp [hb]

/-! ## The claims -/

/-- C1. Counting invariant.  After any finite sequence of the handle operations
default construction, construction from a raw address with `add_ref = true`,
copy and move construction, copy, move and raw-pointer assignment, `reset()`,
`reset(p, true)`, `swap` and handle destruction, started from freshly
constructed objects (all counters 0, no handle), and performed by a
well-behaved client (`okRun`: live handles, raw addresses of objects not yet
deleted, storage for every handle object), the counter of every object that
has not been destroyed equals the number of live handles storing its address. -/
theorem counting_invariant (w : Nat) (ops : List Op) (hok : okRun w State.init ops) (a : Nat)
    (ha : (run w State.init ops).heap.deleted a = 0) :
    use_count (run w State.init ops).heap a = holders (run w State.init ops) a := by
  rcases (inv_run w ops State.init inv_init (init_room w) hok).1 a with ⟨_, h⟩ | ⟨h, _, _⟩
  · exact h
  · omega

theorem counting_invariant_witness :
    okRun 64 State.init [Op.rawCtor (some 7), Op.copyCtor 0, Op.moveCtor 1, Op.destroy 0] ∧
    (run 64 State.init
      [Op.rawCtor (some 7), Op.copyCtor 0, Op.moveCtor 1, Op.destroy 0]).heap.deleted 7 = 0 ∧
    use_count (run 64 State.init
      [Op.rawCtor (some 7), Op.copyCtor 0, Op.moveCtor 1, Op.destroy 0]).heap 7
      = holders (run 64 State.init
        [Op.rawCtor (some 7), Op.copyCtor 0, Op.moveCtor 1, Op.destroy 0]) 7 :=
  ⟨by decide, by decide,
    counting_invariant 64 [Op.rawCtor (some 7), Op.copyCtor 0, Op.moveCtor 1, Op.destroy 0]
      (by decide) 7 (by decide)⟩

/-- C2. Exactly-once destruction (single-threaded).  Let `s` be the state after
any sequence of handle operations of a well-behaved client and `t` the state
after one more operation.  For every object `a`: (1) once destroyed, its count
reads 0 and no handle holds it, so it is never destroyed with a count above 0;
(2) `delete` ran on it at most once; (3) `delete` runs on it in this step
exactly when the step takes its count from 1 to 0; (4) a handle that stores
the address `a` means `a` has not been destroyed; (5) if the step takes away
its last holder, it is destroyed. -/
theorem destroyed_exactly_once (w : Nat) (ops : List Op) (op : Op) (s t : State)
    (hs : s = run w State.init ops) (ht : t = op.apply w s)
    (hok : okRun w State.init ops) (hop : op.ok w s) (a : Nat) :
    (t.heap.deleted a ≠ 0 → t.heap.counter a = 0 ∧ holders t a = 0) ∧
    t.heap.deleted a ≤ 1 ∧
    t.heap.deleted a
      = s.heap.deleted a + (if s.heap.counter a = 1 ∧ t.heap.counter a = 0 then 1 else 0) ∧
    (∀ h, get t h = some a → t.heap.deleted a = 0) ∧
    (0 < holders s a → holders t a = 0 → t.heap.deleted a = 1) := by
  subst hs ht
  obtain ⟨hinv, hb⟩ := inv_run w ops State.init inv_init (init_room w) hok
  obtain ⟨h1, h2, h3⟩ := op_step w _ op hinv hb hop a
  refine ⟨?_, ?_, h2, ?_, h3⟩
  · intro hd
    rcases h1 with ⟨i1, _⟩ | ⟨_, i2, i3⟩
    · exact absurd i1 hd
    · exact ⟨i2, i3⟩
  · rcases h1 with ⟨i1, _⟩ | ⟨i1, _, _⟩ <;> omega
  · intro h hg
    have := holders_pos_of_get _ h a hg
    rcases h1 with ⟨i1, _⟩ | ⟨_, _, i3⟩
    · exact i1
    · omega

theorem destroyed_exactly_once_witness :
    okRun 64 State.init oneLeft ∧ Op.ok 64 (run 64 State.init oneLeft) (Op.destroy 1) ∧
    (run 64 State.init oneLeft).heap.counter 7 = 1 ∧
    ((Op.apply 64 (run 64 State.init oneLeft) (Op.destroy 1)).heap.deleted 7 ≠ 0 →
      (Op.apply 64 (run 64 State.init oneLeft) (Op.destroy 1)).heap.counter 7 = 0 ∧
      holders (Op.apply 64 (run 64 State.init oneLeft) (Op.destroy 1)) 7 = 0) ∧
    (Op.apply 64 (run 64 State.init oneLeft) (Op.destroy 1)).heap.deleted 7 ≤ 1 ∧
    (Op.apply 64 (run 64 State.init oneLeft) (Op.destroy 1)).heap.deleted 7
      = (run 64 State.init oneLeft).heap.deleted 7 +
        (if (run 64 State.init oneLeft).heap.counter 7 = 1 ∧
          (Op.apply 64 (run 64 State.init oneLeft) (Op.destroy 1)).heap.counter 7 = 0
        then 1 else 0) ∧
    (Op.apply 64 (run 64 State.init oneLeft) (Op.destroy 1)).heap.deleted 7 = 1 :=
  have h := destroyed_exactly_once 64 oneLeft (Op.destroy 1)
    (run 64 State.init oneLeft) (Op.apply 64 (run 64 State.init oneLeft) (Op.destroy 1))
    rfl rfl (by decide) (by decide) 7
  ⟨by decide, by decide, by decide, h.1, h.2.1, h.2.2.1, by decide⟩

/-- C3. Mixin operations.  For a counted object `p` with count `n` (a `w`-bit
word): `intrusive_ptr_add_ref` leaves `use_count() = n + 1` (the increment not
exceeding the word) and deletes nothing; for `n ≥ 1`, `intrusive_ptr_release`
leaves the count at `n - 1` and deletes the object iff the decrement result is
zero, that is iff `n = 1`; neither changes the counter or the deletion record
of any other object. -/
theorem mixin_operations (w : Nat) (m : Heap) (p n : Nat) (hn : use_count m p = n)
    (hw : n < 2 ^ w) :
    (n + 1 < 2 ^ w → use_count (intrusive_ptr_add_ref w m p) p = n + 1) ∧
    (intrusive_ptr_add_ref w m p).deleted = m.deleted ∧
    (1 ≤ n → use_count (intrusive_ptr_release w m p) p = n - 1 ∧
      (intrusive_ptr_release w m p).deleted p = m.deleted p + (if n = 1 then 1 else 0) ∧
      ((intrusive_ptr_release w m p).deleted p = m.deleted p + 1 ↔
        use_count (intrusive_ptr_release w m p) p = 0)) ∧
    (∀ b, b ≠ p →
      use_count (intrusive_ptr_add_ref w m p) b = use_count m b ∧
      use_count (intrusive_ptr_release w m p) b = use_count m b ∧
      (intrusive_ptr_release w m p).deleted b = m.deleted b) := by
  unfold use_count at hn ⊢
  have ca := counter_addOpt w m (some p)
  have cr := counter_relOpt w m (some p)
  have dr := deleted_relOpt w m (some p)
  simp only [addOpt, relOpt, Option.some.injEq] at ca cr dr
  refine ⟨fun h => ?_, rfl, fun h1 => ?_, fun b hb => ?_⟩
  · rw [ca p, if_pos rfl, hn, word_succ w n h]
  · have e1 : (intrusive_ptr_release w m p).counter p = n - 1 := by
      rw [cr p, if_pos rfl, hn, word_pred w n h1 hw]
    have e2 : (intrusive_ptr_release w m p).deleted p
        = m.deleted p + (if n = 1 then 1 else 0) := by
      rw [dr p, hn]
      by_cases h : n = 1 <;> simp [h]
    refine ⟨e1, e2, ?_⟩
    rw [e1, e2]
    by_cases h : n = 1
    · simp [h]
    · simp only [h, if_false]; omega
  · have hb2 : ¬ p = b := fun x => hb x.symm
    refine ⟨?_, ?_, ?_⟩
    · rw [ca b, if_neg hb2]
    · rw [cr b, if_neg hb2]
    · rw [dr b]; simp [hb2]

theorem mixin_operations_witness :
    use_count (intrusive_ptr_add_ref 64 Heap.init 3) 3 = 1 ∧ (1 : Nat) < 2 ^ 64 ∧
    (1 ≤ 1 → use_count (intrusive_ptr_release 64 (intrusive_ptr_add_ref 64 Heap.init 3) 3) 3
        = 1 - 1 ∧
      (intrusive_ptr_release 64 (intrusive_ptr_add_ref 64 Heap.init 3) 3).deleted 3
        = (intrusive_ptr_add_ref 64 Heap.init 3).deleted 3 + (if 1 = 1 then 1 else 0) ∧
      ((intrusive_ptr_release 64 (intrusive_ptr_add_ref 64 Heap.init 3) 3).deleted 3
          = (intrusive_ptr_add_ref 64 Heap.init 3).deleted 3 + 1 ↔
        use_count (intrusive_ptr_release 64 (intrusive_ptr_add_ref 64 Heap.init 3) 3) 3 = 0)) :=
  ⟨by decide, by decide,
    (mixin_operations 64 (intrusive_ptr_add_ref 64 Heap.init 3) 3 1 (by decide)
      (by decide)).2.2.1⟩

/-- C4. Copy construction.  Copying a live source handle `r` gives a new handle
with `get() == r.get()` and leaves the address stored in `r` unchanged; a
non-null source has the count of its object raised by exactly 1 (so a count of
1 becomes 2, the increment not exceeding the word), a null source changes no
counter; no other counter changes and nothing is deleted. -/
theorem copy_construction (w : Nat) (s : State) (r : Nat) (hr : isLive s r = true)
    (hw : ∀ a, get s r = some a → use_count s.heap a + 1 < 2 ^ w) :
    get (ctor_copy w s r).1 (ctor_copy w s r).2 = get s r ∧
    get (ctor_copy w s r).1 r = get s r ∧
    (∀ a, get s r = some a →
      use_count (ctor_copy w s r).1.heap a = use_count s.heap a + 1 ∧
      (use_count s.heap a = 1 → use_count (ctor_copy w s r).1.heap a = 2)) ∧
    (get s r = none → (ctor_copy w s r).1.heap = s.heap) ∧
    (∀ b, get s r ≠ some b → use_count (ctor_copy w s r).1.heap b = use_count s.heap b) ∧
    (ctor_copy w s r).1.heap.deleted = s.heap.deleted := by
  have hne := ne_length_of_live s r hr
  have h2 := (handles_ctor_raw w s (get s r) true).2
  have hh : (ctor_copy w s r).1.heap = addOpt w s.heap (get s r) := heap_ctor_raw w s (get s r)
  have hc : ∀ a, get s r = some a →
      use_count (ctor_copy w s r).1.heap a = use_count s.heap a + 1 := by
    intro a ha
    unfold use_count at *
    rw [hh, counter_addOpt, if_pos ha, word_succ w _ (hw a ha)]
  refine ⟨?_, ?_, fun a ha => ⟨hc a ha, fun h1 => ?_⟩, fun hnone => ?_, fun b hb => ?_, ?_⟩
  · unfold ctor_copy
    rw [h2, get_ctor_raw, if_pos rfl]
  · unfold ctor_copy
    rw [get_ctor_raw, if_neg hne]
  · rw [hc a ha, h1]
  · rw [hh, hnone]; rfl
  · unfold use_count
    rw [hh, counter_addOpt, if_neg hb]
  · rw [hh]
    funext b
    exact deleted_addOpt w s.heap (get s r) b

theorem copy_construction_witness :
    isLive soleOwner 0 = true ∧ use_count soleOwner.heap 7 = 1 ∧
    get (ctor_copy 64 soleOwner 0).1 (ctor_copy 64 soleOwner 0).2 = get soleOwner 0 ∧
    use_count (ctor_copy 64 soleOwner 0).1.heap 7 = 2 :=
  ⟨by decide, by decide,
    (copy_construction 64 soleOwner 0 (by decide) (by
      intro a ha
      have e : a = 7 := by
        have h7 : get soleOwner 0 = some 7 := by decide
        rw [h7] at ha
        exact (Option.some.inj ha).symm
      subst e
      decide)).1,
    by decide⟩

/-- C5. Move construction.  Move-constructing from a live source `r` holding the
address `a` (possibly null) gives a new handle with `get() == a`, leaves
`r.get()` null, and performs no increment or decrement: every object's counter
and deletion record is the same before and after. -/
theorem move_construction (s : State) (r : Nat) (hr : isLive s r = true) :
    get (ctor_move s r).1 (ctor_move s r).2 = get s r ∧
    get (ctor_move s r).1 r = none ∧
    (ctor_move s r).1.heap = s.heap := by
  have hne := ne_length_of_live s r hr
  refine ⟨?_, ?_, rfl⟩
  · rw [new_ctor_move, get_ctor_move s r _ hr, if_pos rfl]
  · rw [get_ctor_move s r _ hr, if_neg hne, if_pos rfl]

theorem move_construction_witness :
    isLive soleOwner 0 = true ∧
    get (ctor_move soleOwner 0).1 (ctor_move soleOwner 0).2 = get soleOwner 0 ∧
    get (ctor_move soleOwner 0).1 0 = none ∧
    (ctor_move soleOwner 0).1.heap = soleOwner.heap :=
  ⟨by decide, move_construction soleOwner 0 (by decide)⟩

/-- C6, as stated, fails: the self-move assignment `h = std::move(h)` of a
handle that owns object 7 leaves it owning object 7, not null. -/
theorem self_move_assign_keeps_address :
    isLive soleOwner 0 = true ∧ get soleOwner 0 = some 7 ∧
    get (assign_move 64 soleOwner 0 0) 0 = some 7 ∧
    get (assign_move 64 soleOwner 0 0) 0 ≠ none ∧
    operator_bool (assign_move 64 soleOwner 0 0) 0 = true := by
  decide

/-- C6, amended.  After a move construction from a live handle `r`, and after a
move assignment `d = std::move(r)` between two distinct live handles, `r` is
null: `r.get()` is null and `bool(r)` is false.  A move assignment of a handle
to itself leaves its address as it was. -/
theorem move_source_null (w : Nat) (s : State) (d r : Nat) (hd : isLive s d = true)
    (hr : isLive s r = true) :
    (get (ctor_move s r).1 r = none ∧ operator_bool (ctor_move s r).1 r = false) ∧
    (d ≠ r → get (assign_move w s d r) r = none ∧
      operator_bool (assign_move w s d r) r = false) ∧
    (d = r → get (assign_move w s d r) r = get s r) := by
  have hner := ne_length_of_live s r hr
  have e1 : get (ctor_move s r).1 r = none := by
    rw [get_ctor_move s r _ hr, if_neg hner, if_pos rfl]
  refine ⟨⟨e1, by unfold operator_bool; rw [e1]; rfl⟩, fun hne => ?_, fun he => ?_⟩
  · have hne2 : ¬ r = d := fun x => hne x.symm
    have e2 : get (assign_move w s d r) r = none := by
      rw [get_assign_move w s d r r hd hr, if_neg hner, if_neg hne2, if_pos rfl]
    exact ⟨e2, by unfold operator_bool; rw [e2]; rfl⟩
  · subst he
    rw [get_assign_move w s d d d hd hr, if_neg hner, if_pos rfl]

theorem move_source_null_witness :
    isLive twoOwners 0 = true ∧ isLive twoOwners 1 = true ∧
    (get (ctor_move twoOwners 1).1 1 = none ∧ operator_bool (ctor_move twoOwners 1).1 1 = false) ∧
    (0 ≠ 1 → get (assign_move 64 twoOwners 0 1) 1 = none ∧
      operator_bool (assign_move 64 twoOwners 0 1) 1 = false) ∧
    (0 = 1 → get (assign_move 64 twoOwners 0 1) 1 = get twoOwners 1) :=
  ⟨by decide, by decide, move_source_null 64 twoOwners 0 1 (by decide) (by decide)⟩

/-- C7. Copy assignment `d = r` between two distinct live handles, `d` holding
`a` and `r` holding `b`: afterwards `d.get() == r.get()` and `r` still stores
`b`; if `a ≠ b`, the count of `b` (if non-null) has grown by exactly 1 and the
count of `a` (if non-null) has shrunk by exactly 1, `a` being deleted iff its
count was 1; if `a = b` the counters and deletion records are unchanged; no
other counter changes.  Counts are those of a state in which `d` holds one
reference (count of `a` at least 1) and the increment does not exceed the word. -/
theorem copy_assignment (w : Nat) (s : State) (d r : Nat) (hd : isLive s d = true)
    (hr : isLive s r = true) (hne : d ≠ r)
    (ha : ∀ x, get s d = some x → 1 ≤ use_count s.heap x ∧ use_count s.heap x < 2 ^ w)
    (hb : ∀ y, get s r = some y → use_count s.heap y + 1 < 2 ^ w) :
    get (assign_copy w s d r) d = get s r ∧
    get (assign_copy w s d r) r = get s r ∧
    (get s d ≠ get s r →
      (∀ y, get s r = some y →
        use_count (assign_copy w s d r).heap y = use_count s.heap y + 1 ∧
        (assign_copy w s d r).heap.deleted y = s.heap.deleted y) ∧
      (∀ x, get s d = some x →
        use_count (assign_copy w s d r).heap x = use_count s.heap x - 1 ∧
        (assign_copy w s d r).heap.deleted x
          = s.heap.deleted x + (if use_count s.heap x = 1 then 1 else 0))) ∧
    (get s d = get s r → (assign_copy w s d r).heap = s.heap) ∧
    (∀ z, get s d ≠ some z → get s r ≠ some z →
      use_count (assign_copy w s d r).heap z = use_count s.heap z ∧
      (assign_copy w s d r).heap.deleted z = s.heap.deleted z) := by
  have hned := ne_length_of_live s d hd
  have hner := ne_length_of_live s r hr
  have hne2 : ¬ r = d := fun x => hne x.symm
  have hh : (assign_copy w s d r).heap = relOpt w (addOpt w s.heap (get s r)) (get s d) :=
    (effect_assign_raw w s d (get s r) hd).heap
  have hce := fun z => counter_effect w s.heap (get s r) (get s d) z (hb z) (ha z)
  have hde := fun z => deleted_effect w s.heap (get s r) (get s d) z (hb z) (fun e => (ha z e).1)
  unfold use_count at *
  refine ⟨?_, ?_, fun hab => ⟨fun y hy => ?_, fun x hx => ?_⟩, fun hab => ?_, fun z hz1 hz2 => ?_⟩
  · exact (get_reset_raw w s d (get s r) true d hd).trans (by rw [if_neg hned, if_pos rfl])
  · exact (get_reset_raw w s d (get s r) true r hd).trans (by rw [if_neg hner, if_neg hne2])
  · have hdy : ¬ get s d = some y := fun e => hab (e.trans hy.symm)
    have c := hce y
    have dl := hde y
    rw [← hh] at c dl
    simp only [hy, hdy, if_true, if_false, false_and] at c dl
    exact ⟨by omega, by omega⟩
  · have hrx : ¬ get s r = some x := fun e => hab (hx.trans e.symm)
    have c := hce x
    have dl := hde x
    have := ha x hx
    rw [← hh] at c dl
    simp only [hx, hrx, if_true, if_false, true_and, ne_eq, not_false_eq_true] at c dl
    exact ⟨by omega, dl⟩
  · rw [hh, ← hab]
    cases hx : get s d with
    | none => rfl
    | some x =>
      have := ha x hx
      exact add_then_release w s.heap x this.1 this.2
  · have c := hce z
    have dl := hde z
    rw [← hh] at c dl
    simp only [hz1, hz2, if_false, false_and] at c dl
    exact ⟨by omega, by omega⟩

theorem copy_assignment_witness :
    isLive twoOwners 0 = true ∧ isLive twoOwners 1 = true ∧
    get (assign_copy 64 twoOwners 0 1) 0 = get twoOwners 1 ∧
    use_count (assign_copy 64 twoOwners 0 1).heap 8 = 2 ∧
    (assign_copy 64 twoOwners 0 1).heap.deleted 7 = 1 :=
  ⟨by decide, by decide,
    (copy_assignment 64 twoOwners 0 1 (by decide) (by decide) (by decide)
      (by
        intro x hx
        have h7 : get twoOwners 0 = some 7 := by decide
        rw [h7] at hx
        have e : x = 7 := (Option.some.inj hx).symm
        subst e
        decide)
      (by
        intro y hy
        have h8 : get twoOwners 1 = some 8 := by decide
        rw [h8] at hy
        have e : y = 8 := (Option.some.inj hy).symm
        subst e
        decide)).1,
    by decide, by decide⟩

/-- C8. Self-assignment is safe.  For every live handle `h`, null or referencing
an object with any count `n ≥ 1` (a `w`-bit word; `n = 1` included), the copy
assignment `h = h` leaves `h.get()` unchanged, leaves every counter as it was
and deletes nothing: the heap afterwards is the heap before.  The reason is the
order of the two calls: the heap afterwards is "acquire `h.get()`, then release
`h.get()`". -/
theorem self_assignment (w : Nat) (s : State) (h : Nat) (hl : isLive s h = true)
    (hn : ∀ a, get s h = some a → 1 ≤ use_count s.heap a ∧ use_count s.heap a < 2 ^ w) :
    get (assign_copy w s h h) h = get s h ∧
    (∀ a, use_count (assign_copy w s h h).heap a = use_count s.heap a) ∧
    (∀ a, (assign_copy w s h h).heap.deleted a = s.heap.deleted a) ∧
    (assign_copy w s h h).heap = relOpt w (addOpt w s.heap (get s h)) (get s h) := by
  have hne := ne_length_of_live s h hl
  have hh : (assign_copy w s h h).heap = relOpt w (addOpt w s.heap (get s h)) (get s h) :=
    (effect_assign_raw w s h (get s h) hl).heap
  have he : (assign_copy w s h h).heap = s.heap := by
    rw [hh]
    cases hx : get s h with
    | none => rfl
    | some x =>
      have := hn x hx
      exact add_then_release w s.heap x this.1 this.2
  refine ⟨?_, fun a => by rw [he], fun a => by rw [he], hh⟩
  exact (get_reset_raw w s h (get s h) true h hl).trans (by rw [if_neg hne, if_pos rfl])

theorem self_assignment_witness :
    isLive soleOwner 0 = true ∧ use_count soleOwner.heap 7 = 1 ∧
    get (assign_copy 64 soleOwner 0 0) 0 = some 7 ∧
    use_count (assign_copy 64 soleOwner 0 0).heap 7 = 1 ∧
    (assign_copy 64 soleOwner 0 0).heap.deleted 7 = 0 :=
  ⟨by decide, by decide,
    (self_assignment 64 soleOwner 0 (by decide) (by
      intro a ha
      have h7 : get soleOwner 0 = some 7 := by decide
      rw [h7] at ha
      have e : a = 7 := (Option.some.inj ha).symm
      subst e
      decide)).1,
    by decide, by decide⟩

/-- C9. Construction from a raw address.  For every address `p` and flag
`add_ref`, the new handle has `get() == p`; the counter of the object at `p` is
raised by exactly 1 if `p` is non-null and `add_ref` is true (the increment not
exceeding the word), and the heap is unchanged if `add_ref` is false; a null `p`
with either flag gives a null handle and an unchanged heap; no other counter
changes, nothing is deleted and no other handle changes.  Default construction
gives a null handle (`get()` null, `bool` false) and has no side effect. -/
theorem raw_construction (w : Nat) (s : State) (p : Option Nat) (f : Bool)
    (hw : ∀ a, p = some a → use_count s.heap a + 1 < 2 ^ w) :
    get (ctor_raw w s p f).1 (ctor_raw w s p f).2 = p ∧
    (∀ a, p = some a → f = true →
      use_count (ctor_raw w s p f).1.heap a = use_count s.heap a + 1) ∧
    (f = false → (ctor_raw w s p f).1.heap = s.heap) ∧
    (p = none → (ctor_raw w s p f).1.heap = s.heap ∧
      get (ctor_raw w s p f).1 (ctor_raw w s p f).2 = none ∧
      operator_bool (ctor_raw w s p f).1 (ctor_raw w s p f).2 = false) ∧
    (∀ b, p ≠ some b → use_count (ctor_raw w s p f).1.heap b = use_count s.heap b) ∧
    (ctor_raw w s p f).1.heap.deleted = s.heap.deleted ∧
    (∀ k, k ≠ (ctor_raw w s p f).2 → get (ctor_raw w s p f).1 k = get s k) ∧
    (get (ctor_default s).1 (ctor_default s).2 = none ∧
      operator_bool (ctor_default s).1 (ctor_default s).2 = false ∧
      (ctor_default s).1.heap = s.heap ∧
      ∀ k, k ≠ (ctor_default s).2 → get (ctor_default s).1 k = get s k) := by
  have h2 := (handles_ctor_raw w s p f).2
  have hg : get (ctor_raw w s p f).1 (ctor_raw w s p f).2 = p := by
    rw [h2, get_ctor_raw, if_pos rfl]
  have hfalse : f = false → (ctor_raw w s p f).1.heap = s.heap := by
    intro hf; subst hf; cases p <;> rfl
  have hnone : p = none → (ctor_raw w s p f).1.heap = s.heap := by
    intro hp; subst hp; rfl
  have htrue : f = true → (ctor_raw w s p f).1.heap = addOpt w s.heap p := by
    intro hf; subst hf; exact heap_ctor_raw w s p
  have hd0 : get (ctor_default s).1 (ctor_default s).2 = none := by
    show get (newHandle s none).1 s.handles.length = none
    rw [get_newHandle, if_pos rfl]
  refine ⟨hg, fun a ha hf => ?_, hfalse, fun hp => ⟨hnone hp, ?_, ?_⟩, fun b hb => ?_, ?_,
    fun k hk => ?_, hd0, ?_, rfl, fun k hk => ?_⟩
  · unfold use_count at *
    rw [htrue hf, counter_addOpt, if_pos ha, word_succ w _ (hw a ha)]
  · rw [hg, hp]
  · unfold operator_bool; rw [hg, hp]; rfl
  · unfold use_count
    cases f with
    | false => rw [hfalse rfl]
    | true => rw [htrue rfl, counter_addOpt, if_neg hb]
  · cases f with
    | false => rw [hfalse rfl]
    | true =>
      rw [htrue rfl]
      funext b
      exact deleted_addOpt w s.heap p b
  · rw [h2] at hk
    rw [get_ctor_raw, if_neg hk]
  · unfold operator_bool; rw [hd0]; rfl
  · have hk2 : k ≠ s.handles.length := hk
    show get (newHandle s none).1 k = get s k
    rw [get_newHandle, if_neg hk2]

theorem raw_construction_witness :
    use_count soleOwner.heap 7 + 1 < 2 ^ 64 ∧
    get (ctor_raw 64 soleOwner (some 7) true).1 (ctor_raw 64 soleOwner (some 7) true).2
      = some 7 ∧
    use_count (ctor_raw 64 soleOwner (some 7) true).1.heap 7 = 2 :=
  ⟨by decide,
    (raw_construction 64 soleOwner (some 7) true (by
      intro a ha
      have e : a = 7 := (Option.some.inj ha).symm
      subst e
      decide)).1,
    by decide⟩

/-- C10. Detach/adopt round trip.  For every live handle `h`, `p = h.detach()`
returns the address `h` held, leaves `h` null, and leaves the heap (every
counter, every deletion record) unchanged; constructing
`h2 = intrusive_ptr(p, false)` afterwards gives `h2.get() == p`, and the heap is
still the one before the detach: no net increment or decrement. -/
theorem detach_adopt_round_trip (w : Nat) (s : State) (h : Nat) (hl : isLive s h = true) :
    (detach s h).2 = get s h ∧
    get (detach s h).1 h = none ∧
    (detach s h).1.heap = s.heap ∧
    get (ctor_raw w (detach s h).1 (detach s h).2 false).1
      (ctor_raw w (detach s h).1 (detach s h).2 false).2 = get s h ∧
    (ctor_raw w (detach s h).1 (detach s h).2 false).1.heap = s.heap ∧
    (∀ a, use_count (ctor_raw w (detach s h).1 (detach s h).2 false).1.heap a
      = use_count s.heap a) := by
  have e : (ctor_raw w (detach s h).1 (detach s h).2 false).1.heap = s.heap := by
    show (ctor_raw w (setPtr s h none) (get s h) false).1.heap = s.heap
    cases get s h <;> rfl
  refine ⟨rfl, ?_, rfl, ?_, e, fun a => by rw [e]⟩
  · show get (setPtr s h none) h = none
    rw [get_setPtr s h none h hl, if_pos rfl]
  · rw [(handles_ctor_raw w _ _ false).2, get_ctor_raw, if_pos rfl]
    rfl

theorem detach_adopt_round_trip_witness :
    isLive soleOwner 0 = true ∧
    (detach soleOwner 0).2 = some 7 ∧
    get (detach soleOwner 0).1 0 = none ∧
    use_count (ctor_raw 64 (detach soleOwner 0).1 (detach soleOwner 0).2 false).1.heap 7 = 1 :=
  ⟨by decide, by decide, (detach_adopt_round_trip 64 soleOwner 0 (by decide)).2.1, by decide⟩

theorem live_ctor_default (s : State) (k : Nat) :
    isLive (ctor_default s).1 k = if k = s.handles.length then true else isLive s k := by
  unfold ctor_default
  exact isLive_newHandle s none k

theorem get_ctor_default (s : State) (k : Nat) :
    get (ctor_default s).1 k = if k = s.handles.length then none else get s k := by
  unfold ctor_default
  exact get_newHandle s none k

theorem get_reset (w : Nat) (s : State) (h k : Nat) (hl : isLive s h = true) :
    get (reset w s h) k = if k = h then none else get s k := by
  have hne := ne_length_of_live s h hl
  have e := get_temp w (ctor_default s).1 (ctor_default s).2 h k
    (by rw [live_ctor_default]; simp [ctor_default, newHandle])
    (by rw [live_ctor_default]; simp [hne, hl])
  show get (dtor w (swap (ctor_default s).1 (ctor_default s).2 h) (ctor_default s).2) k = _
  rw [e]
  have h2 : (ctor_default s).2 = s.handles.length := rfl
  simp only [get_ctor_default, h2, if_true]
  by_cases e1 : k = s.handles.length
  · subst e1
    have hn : get s s.handles.length = none := by
      unfold get; simp
    have e2 : ¬ s.handles.length = h := fun x => hne x.symm
    simp [hn, e2]
  · simp [e1]


/-- C11. `reset()` is equivalent to assigning a null handle.  For every live
handle `h`, `h.reset()` and the copy assignment of a default-constructed handle
to `h` end with the same address in `h` (null), the same address in every
other handle that existed before, and the same heap (every counter, every
deletion record).  The object `h` referenced has its count lowered by exactly
1 and is deleted iff that count was 1; no other object changes; on a null
handle `reset()` changes no counter, no deletion record and no address. -/
theorem reset_is_null_assignment (w : Nat) (s : State) (h : Nat) (hl : isLive s h = true)
    (hn : ∀ a, get s h = some a → 1 ≤ use_count s.heap a ∧ use_count s.heap a < 2 ^ w) :
    get (reset w s h) h = none ∧
    get (reset_as_assignment w s h) h = none ∧
    (∀ k, k < s.handles.length →
      get (reset w s h) k = get (reset_as_assignment w s h) k) ∧
    (reset w s h).heap = (reset_as_assignment w s h).heap ∧
    (∀ a, get s h = some a →
      use_count (reset w s h).heap a = use_count s.heap a - 1 ∧
      (reset w s h).heap.deleted a
        = s.heap.deleted a + (if use_count s.heap a = 1 then 1 else 0)) ∧
    (∀ b, get s h ≠ some b →
      use_count (reset w s h).heap b = use_count s.heap b ∧
      (reset w s h).heap.deleted b = s.heap.deleted b) ∧
    (get s h = none → (reset w s h).heap = s.heap ∧ ∀ k, get (reset w s h) k = get s k) := by
  have hne := ne_length_of_live s h hl
  have hl1 : isLive (ctor_default s).1 h = true := by
    rw [live_ctor_default]; simp [hne, hl]
  have hlen : (ctor_default s).1.handles.length = s.handles.length + 1 := by
    simp [ctor_default, newHandle]
  have hr : (reset w s h).heap = relOpt w s.heap (get s h) := (effect_reset w s h hl).heap
  have hgn : get (ctor_default s).1 (ctor_default s).2 = none := by
    rw [get_ctor_default]; simp [ctor_default, newHandle]
  have hgh : get (ctor_default s).1 h = get s h := by
    rw [get_ctor_default, if_neg hne]
  have ha : (reset_as_assignment w s h).heap = relOpt w s.heap (get s h) := by
    have e : (reset_as_assignment w s h).heap
        = relOpt w (addOpt w (ctor_default s).1.heap (get (ctor_default s).1 (ctor_default s).2))
          (get (ctor_default s).1 h) :=
      (effect_assign_raw w (ctor_default s).1 h
        (get (ctor_default s).1 (ctor_default s).2) hl1).heap
    rw [hgn, hgh] at e
    exact e
  have hga : ∀ k, get (reset_as_assignment w s h) k
      = if k = s.handles.length + 1 then none else if k = h then none
        else get (ctor_default s).1 k := by
    intro k
    have e : get (reset_as_assignment w s h) k
        = if k = (ctor_default s).1.handles.length then none else if k = h
          then get (ctor_default s).1 (ctor_default s).2 else get (ctor_default s).1 k :=
      get_reset_raw w (ctor_default s).1 h
        (get (ctor_default s).1 (ctor_default s).2) true k hl1
    rw [hgn, hlen] at e
    exact e
  have hce := fun z => counter_effect w s.heap none (get s h) z (by simp) (hn z)
  have hde := fun z => deleted_effect w s.heap none (get s h) z (by simp) (fun e => (hn z e).1)
  unfold use_count at *
  refine ⟨?_, ?_, fun k hk => ?_, by rw [hr, ha], fun a hga1 => ?_, fun b hb => ?_, fun hnone => ?_⟩
  · rw [get_reset w s h h hl, if_pos rfl]
  · rw [hga h]; simp
  · have k1 : ¬ k = s.handles.length + 1 := by omega
    have k2 : ¬ k = s.handles.length := by omega
    rw [get_reset w s h k hl, hga k, if_neg k1, get_ctor_default, if_neg k2]
  · have c := hce a
    have dl := hde a
    have := hn a hga1
    rw [hr, hga1]
    simp only [addOpt, hga1, if_true, true_and, ne_eq, not_false_eq_true, reduceCtorEq,
      if_false] at c dl
    exact ⟨by omega, dl⟩
  · have c := hce b
    have dl := hde b
    rw [hr]
    simp only [addOpt, hb, if_false, false_and, reduceCtorEq] at c dl
    exact ⟨by omega, by omega⟩
  · refine ⟨by rw [hr, hnone]; rfl, fun k => ?_⟩
    rw [get_reset w s h k hl]
    by_cases e : k = h
    · rw [if_pos e, e, hnone]
    · rw [if_neg e]

theorem reset_is_null_assignment_witness :
    isLive soleOwner 0 = true ∧ use_count soleOwner.heap 7 = 1 ∧
    get (reset 64 soleOwner 0) 0 = none ∧
    (reset 64 soleOwner 0).heap.deleted 7 = 1 :=
  ⟨by decide, by decide,
    (reset_is_null_assignment 64 soleOwner 0 (by decide) (by
      intro a ha
      have h7 : get soleOwner 0 = some 7 := by decide
      rw [h7] at ha
      have e : a = 7 := (Option.some.inj ha).symm
      subst e
      decide)).1,
    by decide⟩

theorem heap_reset_raw (w : Nat) (s : State) (h : Nat) (p : Option Nat) (f : Bool)
    (hl : isLive s h = true) :
    (reset_raw w s h p f).heap
      = relOpt w (if f = true then addOpt w s.heap p else s.heap) (get s h) := by
  cases f with
  | false => simpa using heap_reset_raw_false w s h p hl
  | true => simpa using (effect_assign_raw w s h p hl).heap

/-- C12. `reset(p, add_ref)`.  For every live handle `h` holding `a`, address `p`
and flag `f`: afterwards `h.get() == p`; the heap is the one obtained by first
incrementing the object at `p` iff `p` is non-null and `f` is true, and only
then releasing the object at `a` (if non-null) once; no other handle that
existed before changes.  In particular a sole owner `h` (count 1) calling
`h.reset(h.get(), true)` leaves the object with count 1 and not deleted. -/
theorem reset_raw_replaces (w : Nat) (s : State) (h : Nat) (p : Option Nat) (f : Bool)
    (hl : isLive s h = true) :
    get (reset_raw w s h p f) h = p ∧
    (reset_raw w s h p f).heap
      = relOpt w (if f = true then addOpt w s.heap p else s.heap) (get s h) ∧
    (∀ k, k < s.handles.length → k ≠ h → get (reset_raw w s h p f) k = get s k) ∧
    (∀ b, p = some b → get s h ≠ some b → use_count s.heap b + 1 < 2 ^ w →
      use_count (reset_raw w s h p f).heap b
        = use_count s.heap b + (if f = true then 1 else 0) ∧
      (reset_raw w s h p f).heap.deleted b = s.heap.deleted b) ∧
    (∀ a, get s h = some a → p ≠ some a →
      1 ≤ use_count s.heap a → use_count s.heap a < 2 ^ w →
      use_count (reset_raw w s h p f).heap a = use_count s.heap a - 1 ∧
      (reset_raw w s h p f).heap.deleted a
        = s.heap.deleted a + (if use_count s.heap a = 1 then 1 else 0)) ∧
    (∀ a, get s h = some a → use_count s.heap a = 1 → 1 < 2 ^ w →
      use_count (reset_raw w s h (get s h) true).heap a = 1 ∧
      (reset_raw w s h (get s h) true).heap.deleted a = s.heap.deleted a ∧
      get (reset_raw w s h (get s h) true) h = some a) := by
  have hne := ne_length_of_live s h hl
  have hh : (reset_raw w s h p f).heap
      = relOpt w (addOpt w s.heap (if f = true then p else none)) (get s h) := by
    rw [heap_reset_raw w s h p f hl]
    cases f <;> rfl
  refine ⟨?_, heap_reset_raw w s h p f hl, fun k hk hkh => ?_, fun b hb hab hov => ?_,
    fun a ha hpa h1 h2 => ?_, fun a ha h1 hw => ?_⟩
  · rw [get_reset_raw w s h p f h hl, if_neg hne, if_pos rfl]
  · have k2 : ¬ k = s.handles.length := by omega
    rw [get_reset_raw w s h p f k hl, if_neg k2, if_neg hkh]
  · unfold use_count at *
    have c := counter_effect w s.heap (if f = true then p else none) (get s h) b
      (fun _ => hov) (fun e => absurd e hab)
    have dl := deleted_effect w s.heap (if f = true then p else none) (get s h) b
      (fun _ => hov) (fun e => absurd e hab)
    rw [← hh] at c dl
    cases f with
    | false => simp [hab] at c dl ⊢; exact ⟨c, dl⟩
    | true => simp [hab, hb] at c dl ⊢; exact ⟨c, dl⟩
  · unfold use_count at *
    have hpa2 : ¬ (if f = true then p else none) = some a := by
      cases f with
      | false => simp
      | true => simpa using hpa
    have c := counter_effect w s.heap (if f = true then p else none) (get s h) a
      (fun e => absurd e hpa2) (fun _ => ⟨h1, h2⟩)
    have dl := deleted_effect w s.heap (if f = true then p else none) (get s h) a
      (fun e => absurd e hpa2) (fun _ => h1)
    rw [← hh] at c dl
    simp only [ha, hpa2, if_true, if_false, true_and, ne_eq, not_false_eq_true] at c dl
    exact ⟨by omega, dl⟩
  · unfold use_count at *
    have e : (reset_raw w s h (get s h) true).heap = s.heap := by
      rw [heap_reset_raw w s h (get s h) true hl, ha]
      exact add_then_release w s.heap a (by omega) (by omega)
    refine ⟨by rw [e, h1], by rw [e], ?_⟩
    rw [get_reset_raw w s h (get s h) true h hl, if_neg hne, if_pos rfl, ha]

theorem reset_raw_replaces_witness :
    isLive soleOwner 0 = true ∧
    get (reset_raw 64 soleOwner 0 (some 8) true) 0 = some 8 ∧
    use_count (reset_raw 64 soleOwner 0 (some 8) true).heap 8 = 1 ∧
    (reset_raw 64 soleOwner 0 (some 8) true).heap.deleted 7 = 1 ∧
    use_count (reset_raw 64 soleOwner 0 (some 7) true).heap 7 = 1 ∧
    (reset_raw 64 soleOwner 0 (some 7) true).heap.deleted 7 = 0 :=
  ⟨by decide, (reset_raw_replaces 64 soleOwner 0 (some 8) true (by decide)).1,
    by decide, by decide, by decide, by decide⟩

theorem handles_swap_swap (l : List Handle) (a b : Nat) (x y : Option Nat)
    (ha : l[a]? = some (Handle.live x)) (hb : l[b]? = some (Handle.live y)) :
    (((l.set a (Handle.live y)).set b (Handle.live x)).set a (Handle.live x)).set b
      (Handle.live (if a = b then x else y)) = l := by
  obtain ⟨hla, _⟩ := List.getElem?_eq_some_iff.1 ha
  obtain ⟨hlb, _⟩ := List.getElem?_eq_some_iff.1 hb
  apply List.ext_getElem?
  intro k
  simp only [List.getElem?_set, List.length_set]
  by_cases kb : b = k
  · subst kb
    by_cases ab : a = b
    · subst ab
      simp [hla, ha]
    · simp [hlb, ab, hb]
  · by_cases ka : a = k
    · subst ka
      simp [kb, hla, ha]
    · simp [kb, ka]

/-- C13. `swap` exchanges addresses only.  For all live handles `a` and `b`
(also when `a` and `b` are the same handle), after `a.swap(b)` handle `a` holds
the former address of `b` and `b` the former address of `a`, every other
handle keeps its address, and the heap (every counter, every deletion record)
is unchanged; the free function `swap(a, b)` gives exactly the same state; and
swapping twice gives back the original state. -/
theorem swap_exchanges_addresses (s : State) (a b : Nat) (ha : isLive s a = true)
    (hb : isLive s b = true) :
    get (swap s a b) a = get s b ∧
    get (swap s a b) b = get s a ∧
    (∀ k, k ≠ a → k ≠ b → get (swap s a b) k = get s k) ∧
    (swap s a b).heap = s.heap ∧
    swap_free s a b = swap s a b ∧
    swap (swap s a b) a b = s := by
  have hg := get_swap s a b
  refine ⟨?_, ?_, fun k ka kb => ?_, rfl, rfl, ?_⟩
  · rw [hg a ha hb]
    by_cases e : a = b
    · rw [if_pos e, e]
    · rw [if_neg e, if_pos rfl]
  · rw [hg b ha hb, if_pos rfl]
  · rw [hg k ha hb, if_neg kb, if_neg ka]
  · have e1 : get (swap s a b) b = get s a := by rw [hg b ha hb, if_pos rfl]
    have e2 : get (swap s a b) a = if a = b then get s a else get s b := by
      rw [hg a ha hb]
      by_cases e : a = b
      · simp [e]
      · simp [e]
    have hh : (swap (swap s a b) a b).handles
        = (((s.handles.set a (Handle.live (get s b))).set b (Handle.live (get s a))).set a
            (Handle.live (get (swap s a b) b))).set b (Handle.live (get (swap s a b) a)) := rfl
    have hm : (swap (swap s a b) a b).heap = s.heap := rfl
    rw [e1, e2] at hh
    have key := handles_swap_swap s.handles a b (get s a) (get s b)
      (live_lookup s a ha) (live_lookup s b hb)
    have hfin : (swap (swap s a b) a b).handles = s.handles := by
      rw [hh]
      by_cases e : a = b
      · subst e; simpa using key
      · simpa [e] using key
    cases hs : swap (swap s a b) a b with
    | mk m l =>
      rw [hs] at hm hfin
      cases s
      simp only at hm hfin
      rw [hm, hfin]

theorem swap_exchanges_addresses_witness :
    isLive twoOwners 0 = true ∧ isLive twoOwners 1 = true ∧
    get (swap twoOwners 0 1) 0 = some 8 ∧ get (swap twoOwners 0 1) 1 = some 7 ∧
    swap (swap twoOwners 0 1) 0 1 = twoOwners :=
  ⟨by decide, by decide, by decide, by decide,
    (swap_exchanges_addresses twoOwners 0 1 (by decide) (by decide)).2.2.2.2.2⟩

/-- C14. Equality is address identity.  For all handles `a`, `b` and raw
addresses `p`: `a == b` iff `a.get() == b.get()`; `a == p` iff `p == a` iff
`a.get() == p`; every `!=` is the negation of the matching `==`.  Hence two
null handles are equal, a null handle differs from a handle holding an object,
handles holding the same address are equal and handles holding different
addresses differ; the answers depend on the stored addresses only, not on the
heap (the objects pointed to). -/
theorem equality_is_address_identity (s : State) (a b : Nat) (p : Option Nat) :
    (operator_eq s a b = true ↔ get s a = get s b) ∧
    (operator_eq_raw s a p = true ↔ get s a = p) ∧
    (raw_operator_eq s p a = true ↔ get s a = p) ∧
    operator_ne s a b = !operator_eq s a b ∧
    operator_ne_raw s a p = !operator_eq_raw s a p ∧
    raw_operator_ne s p a = !raw_operator_eq s p a ∧
    (get s a = none → get s b = none → operator_eq s a b = true) ∧
    (∀ x, get s a = none → get s b = some x →
      operator_eq s a b = false ∧ operator_eq s b a = false ∧ operator_ne s a b = true) ∧
    (∀ x, get s a = some x → get s b = some x →
      operator_eq s a b = true ∧ operator_ne s a b = false) ∧
    (∀ x y, get s a = some x → get s b = some y → x ≠ y →
      operator_eq s a b = false ∧ operator_ne s a b = true) ∧
    (∀ m : Heap, operator_eq { s with heap := m } a b = operator_eq s a b ∧
      operator_ne { s with heap := m } a b = operator_ne s a b) := by
  unfold operator_eq operator_ne operator_eq_raw operator_ne_raw raw_operator_eq raw_operator_ne
  refine ⟨by simp, by simp, ?_, rfl, rfl, rfl, ?_, ?_, ?_, ?_, fun m => ⟨rfl, rfl⟩⟩
  · simp only [beq_iff_eq]
    exact ⟨fun h => h.symm, fun h => h.symm⟩
  · intro h1 h2; simp [h1, h2]
  · intro x h1 h2; simp [h1, h2]
  · intro x h1 h2; simp [h1, h2]
  · intro x y h1 h2 hxy; simp [h1, h2, hxy]

/-- C16. The counter belongs to the object, not to its value.  Copy-assigning
the mixin part of the object `v` to the object `self` leaves the whole heap, so
both counters, unchanged whatever the two counts are; copy-constructing a new
object `self` from a source `v` with count `n` leaves the source at `n`, every
other counter as it was, and gives the new object `use_count() == 0`. -/
theorem counter_is_per_object (m : Heap) (self v : Nat) (hne : self ≠ v) :
    ref_counter_assign m self v = m ∧
    use_count (ref_counter_assign m self v) self = use_count m self ∧
    use_count (ref_counter_assign m self v) v = use_count m v ∧
    use_count (ref_counter_ctor_copy m self v) v = use_count m v ∧
    use_count (ref_counter_ctor_copy m self v) self = 0 ∧
    (∀ b, b ≠ self → use_count (ref_counter_ctor_copy m self v) b = use_count m b) ∧
    (ref_counter_ctor_copy m self v).deleted = m.deleted := by
  have hne2 : ¬ v = self := fun x => hne x.symm
  refine ⟨rfl, rfl, rfl, ?_, ?_, fun b hb => ?_, rfl⟩
  · simp [use_count, ref_counter_ctor_copy, hne2]
  · simp [use_count, ref_counter_ctor_copy]
  · simp [use_count, ref_counter_ctor_copy, hb]

theorem counter_is_per_object_witness :
    (3 : Nat) ≠ 7 ∧ use_count soleOwner.heap 7 = 1 ∧
    use_count (ref_counter_assign soleOwner.heap 3 7) 7 = 1 ∧
    use_count (ref_counter_ctor_copy soleOwner.heap 3 7) 7 = use_count soleOwner.heap 7 ∧
    use_count (ref_counter_ctor_copy soleOwner.heap 3 7) 3 = 0 :=
  ⟨by decide, by decide, by decide,
    (counter_is_per_object soleOwner.heap 3 7 (by decide)).2.2.2.1,
    (counter_is_per_object soleOwner.heap 3 7 (by decide)).2.2.2.2.1⟩

/-- C20. Over-release is unchecked and wraps.  With `_counter` a word of `w`
bits, `intrusive_ptr_release` on an object whose count is 0 does not delete it
and leaves `use_count() == 2 ^ w - 1`.  Consequently a handle built with
`add_ref = false` over an object with count 0 does not delete that object when
the handle is destroyed or `reset()`: the count wraps to `2 ^ w - 1`. -/
theorem over_release_wraps (w : Nat) (s : State) (a : Nat) (h0 : use_count s.heap a = 0) :
    use_count (intrusive_ptr_release w s.heap a) a = 2 ^ w - 1 ∧
    (intrusive_ptr_release w s.heap a).deleted = s.heap.deleted ∧
    get (ctor_raw w s (some a) false).1 (ctor_raw w s (some a) false).2 = some a ∧
    use_count (ctor_raw w s (some a) false).1.heap a = 0 ∧
    (dtor w (ctor_raw w s (some a) false).1 (ctor_raw w s (some a) false).2).heap.deleted
      = s.heap.deleted ∧
    use_count (dtor w (ctor_raw w s (some a) false).1
      (ctor_raw w s (some a) false).2).heap a = 2 ^ w - 1 ∧
    (reset w (ctor_raw w s (some a) false).1 (ctor_raw w s (some a) false).2).heap.deleted
      = s.heap.deleted ∧
    use_count (reset w (ctor_raw w s (some a) false).1
      (ctor_raw w s (some a) false).2).heap a = 2 ^ w - 1 := by
  unfold use_count at *
  have hne : ¬ (0 : Nat) = 1 := by decide
  have r1 : (intrusive_ptr_release w s.heap a).counter a = 2 ^ w - 1 := by
    have := counter_relOpt w s.heap (some a) a
    simp only [relOpt, if_true] at this
    rw [this, h0, word_pred_zero]
  have r2 : (intrusive_ptr_release w s.heap a).deleted = s.heap.deleted := by
    unfold intrusive_ptr_release
    simp only [h0, if_neg hne]
  have hl : isLive (ctor_raw w s (some a) false).1 (ctor_raw w s (some a) false).2 = true := by
    rw [(handles_ctor_raw w s (some a) false).2, live_ctor_raw, if_pos rfl]
  have hg : get (ctor_raw w s (some a) false).1 (ctor_raw w s (some a) false).2 = some a := by
    rw [(handles_ctor_raw w s (some a) false).2, get_ctor_raw, if_pos rfl]
  have hh : (ctor_raw w s (some a) false).1.heap = s.heap := rfl
  have d1 : (dtor w (ctor_raw w s (some a) false).1 (ctor_raw w s (some a) false).2).heap
      = intrusive_ptr_release w s.heap a := by
    rw [heap_dtor, hg, hh]; rfl
  have d2 : (reset w (ctor_raw w s (some a) false).1 (ctor_raw w s (some a) false).2).heap
      = intrusive_ptr_release w s.heap a := by
    rw [(effect_reset w _ _ hl).heap, hg, hh]; rfl
  exact ⟨r1, r2, hg, by rw [hh, h0], by rw [d1, r2], by rw [d1, r1], by rw [d2, r2],
    by rw [d2, r1]⟩

theorem over_release_wraps_witness :
    use_count State.init.heap 5 = 0 ∧
    use_count (intrusive_ptr_release 64 State.init.heap 5) 5 = 2 ^ 64 - 1 ∧
    (dtor 64 (ctor_raw 64 State.init (some 5) false).1
      (ctor_raw 64 State.init (some 5) false).2).heap.deleted 5 = 0 :=
  ⟨by decide, (over_release_wraps 64 State.init 5 (by decide)).1, by decide⟩

/-- C17. The lifecycle scenario, for any object `X` and any counter width of at
least 2 bits.  Fresh `X` has count 0; wrapping it in `a` gives count 1; copying
`a` into `b` gives 2; moving `b` into `c` leaves 2 with `b` null and `c`
holding `X`; destroying `a` gives 1 with `X` not deleted; destroying `c` gives
0 and deletes `X`.  `delete` ran on `X` exactly once in the whole run, and not
before the final step. -/
theorem lifecycle_scenario (w X : Nat) (hw : 2 ≤ w) :
    use_count State.init.heap X = 0 ∧
    (use_count (run w State.init ((lifecycle X).take 1)).heap X = 1 ∧
      get (run w State.init ((lifecycle X).take 1)) 0 = some X) ∧
    (use_count (run w State.init ((lifecycle X).take 2)).heap X = 2 ∧
      get (run w State.init ((lifecycle X).take 2)) 1 = some X) ∧
    (use_count (run w State.init ((lifecycle X).take 3)).heap X = 2 ∧
      get (run w State.init ((lifecycle X).take 3)) 1 = none ∧
      get (run w State.init ((lifecycle X).take 3)) 2 = some X) ∧
    (use_count (run w State.init ((lifecycle X).take 4)).heap X = 1 ∧
      (run w State.init ((lifecycle X).take 4)).heap.deleted X = 0) ∧
    (use_count (run w State.init (lifecycle X)).heap X = 0 ∧
      (run w State.init (lifecycle X)).heap.deleted X = 1) ∧
    (∀ k, k < 5 → (run w State.init ((lifecycle X).take k)).heap.deleted X = 0) ∧
    okRun w State.init (lifecycle X) := by
  have h4 : 4 ≤ 2 ^ w := by
    calc 4 = 2 ^ 2 := by norm_num
      _ ≤ 2 ^ w := Nat.pow_le_pow_right (by decide) hw
  have m1 : 1 % 2 ^ w = 1 := Nat.mod_eq_of_lt (by omega)
  have m2 : 2 % 2 ^ w = 2 := Nat.mod_eq_of_lt (by omega)
  have p2 : (2 + 2 ^ w - 1) % 2 ^ w = 1 := word_pred w 2 (by omega) (by omega)
  have p1 : (1 + 2 ^ w - 1) % 2 ^ w = 0 := word_pred w 1 (by omega) (by omega)
  refine ⟨rfl, ?_, ?_, ?_, ?_, ?_, ?_, ?_⟩
  · simp [lifecycle, run, Op.apply, ctor_raw, newHandle, State.init, Heap.init,
      intrusive_ptr_add_ref, use_count, get, m1]
  · simp [lifecycle, run, Op.apply, ctor_raw, ctor_copy, newHandle, State.init, Heap.init,
      intrusive_ptr_add_ref, use_count, get, m1, m2]
  · simp [lifecycle, run, Op.apply, ctor_raw, ctor_copy, ctor_move, setPtr, newHandle,
      State.init, Heap.init, intrusive_ptr_add_ref, use_count, get, m1, m2]
  · simp [lifecycle, run, Op.apply, ctor_raw, ctor_copy, ctor_move, dtor, setPtr, newHandle,
      State.init, Heap.init, intrusive_ptr_add_ref, intrusive_ptr_release, use_count, get,
      m1, m2, p2]
  · simp [lifecycle, run, Op.apply, ctor_raw, ctor_copy, ctor_move, dtor, setPtr, newHandle,
      State.init, Heap.init, intrusive_ptr_add_ref, intrusive_ptr_release, use_count, get,
      m1, m2, p2, p1]
  · intro k hk
    interval_cases k <;>
    simp [lifecycle, run, Op.apply, ctor_raw, ctor_copy, ctor_move, dtor, setPtr, newHandle,
      State.init, Heap.init, intrusive_ptr_add_ref, intrusive_ptr_release, use_count, get,
      m1, m2, p2, p1]
  · simp [lifecycle, okRun, Op.ok, Op.argsOk, Op.constructs, Op.apply, validPtr, isLive,
      liveCount, ctor_raw, ctor_copy, ctor_move, dtor, setPtr, newHandle,
      State.init, Heap.init, intrusive_ptr_add_ref, intrusive_ptr_release, get]
    omega

theorem lifecycle_scenario_witness :
    (2 : Nat) ≤ 64 ∧
    use_count (run 64 State.init ((lifecycle 7).take 3)).heap 7 = 2 ∧
    use_count (run 64 State.init (lifecycle 7)).heap 7 = 0 ∧
    (run 64 State.init (lifecycle 7)).heap.deleted 7 = 1 :=
  ⟨by decide, by decide, (lifecycle_scenario 64 7 (by decide)).2.2.2.2.2.1⟩

/-- Generic step: "acquire `p`, then release `q`" against any count `N` of the
references to each object. -/
theorem count_step (w : Nat) (m m1 : Heap) (p q : Option Nat) (N N1 : Nat → Nat)
    (hm : m1 = relOpt w (addOpt w m p) q)
    (hN : ∀ a, N1 a + (if q = some a then 1 else 0) = N a + (if p = some a then 1 else 0))
    (hp : ∀ a, p = some a → m.deleted a = 0 ∧ m.counter a + 1 < 2 ^ w)
    (hq : ∀ a, q = some a → 0 < N a) (a : Nat)
    (hinv : (m.deleted a = 0 ∧ m.counter a = N a ∧ m.counter a < 2 ^ w) ∨
      (m.deleted a = 1 ∧ m.counter a = 0 ∧ N a = 0)) :
    ((m1.deleted a = 0 ∧ m1.counter a = N1 a ∧ m1.counter a < 2 ^ w) ∨
      (m1.deleted a = 1 ∧ m1.counter a = 0 ∧ N1 a = 0)) ∧
    (m1.deleted a ≠ m.deleted a → N1 a = 0 ∧ N a = 1) := by
  have hh := hN a
  have hp1 := hp a
  have hq1 := hq a
  have hc : m1.counter a + (if q = some a then 1 else 0)
      = m.counter a + (if p = some a then 1 else 0) ∨ m.deleted a = 1 := by
    rcases hinv with ⟨i1, i2, i3⟩ | ⟨i1, _, _⟩
    · left
      rw [hm]
      exact counter_effect w m p q a (fun e => (hp1 e).2) (fun e => ⟨by have := hq1 e; omega, i3⟩)
    · exact Or.inr i1
  have hd : m1.deleted a
      = m.deleted a + (if q = some a ∧ p ≠ some a ∧ m.counter a = 1 then 1 else 0)
        ∨ m.deleted a = 1 := by
    rcases hinv with ⟨i1, i2, i3⟩ | ⟨i1, _, _⟩
    · left
      rw [hm]
      exact deleted_effect w m p q a (fun e => (hp1 e).2) (fun e => by have := hq1 e; omega)
    · exact Or.inr i1
  rcases hinv with ⟨i1, i2, i3⟩ | ⟨i1, i2, i3⟩
  · rcases hc with hc | hc
    · rcases hd with hd | hd
      · by_cases hpa : p = some a <;> by_cases hqa : q = some a
        · have := hp1 hpa
          have := hq1 hqa
          have k : ¬ (q = some a ∧ p ≠ some a ∧ m.counter a = 1) := fun x => x.2.1 hpa
          rw [if_neg k] at hd
          simp only [hpa, hqa, if_true] at hh hc
          exact ⟨Or.inl ⟨by omega, by omega, by omega⟩, fun x => absurd hd x⟩
        · have := hp1 hpa
          have k : ¬ (q = some a ∧ p ≠ some a ∧ m.counter a = 1) := fun x => hqa x.1
          rw [if_neg k] at hd
          simp only [hpa, hqa, if_true, if_false] at hh hc
          exact ⟨Or.inl ⟨by omega, by omega, by omega⟩, fun x => absurd hd x⟩
        · have := hq1 hqa
          simp only [hpa, hqa, if_true, if_false] at hh hc
          by_cases h1 : m.counter a = 1
          · have k : q = some a ∧ p ≠ some a ∧ m.counter a = 1 := ⟨hqa, hpa, h1⟩
            rw [if_pos k] at hd
            exact ⟨Or.inr ⟨by omega, by omega, by omega⟩, fun _ => ⟨by omega, by omega⟩⟩
          · have k : ¬ (q = some a ∧ p ≠ some a ∧ m.counter a = 1) := fun x => h1 x.2.2
            rw [if_neg k] at hd
            exact ⟨Or.inl ⟨by omega, by omega, by omega⟩, fun x => absurd hd x⟩
        · have k : ¬ (q = some a ∧ p ≠ some a ∧ m.counter a = 1) := fun x => hqa x.1
          rw [if_neg k] at hd
          simp only [hpa, hqa, if_false] at hh hc
          exact ⟨Or.inl ⟨by omega, by omega, by omega⟩, fun x => absurd hd x⟩
      · omega
    · omega
  · have hpa : ¬ p = some a := fun x => by have := (hp1 x).1; omega
    have hqa : ¬ q = some a := fun x => by have := hq1 x; omega
    have e1 : m1.counter a = m.counter a := by
      rw [hm, counter_relOpt, counter_addOpt, if_neg hqa, if_neg hpa]
    have e2 : m1.deleted a = m.deleted a := by
      rw [hm, deleted_relOpt, deleted_addOpt]
      have k : ¬ (q = some a ∧ (addOpt w m p).counter a = 1) := fun x => hqa x.1
      rw [if_neg k]
    simp only [hpa, hqa, if_false] at hh
    exact ⟨Or.inr ⟨by omega, by omega, by omega⟩, fun x => absurd e2 x⟩

theorem holders_temp (w : Nat) (s1 : State) (t h a : Nat)
    (ht : isLive s1 t = true) (hh : isLive s1 h = true) (hne : t ≠ h) :
    holders (dtor w (swap s1 t h) t) a + (if get s1 h = some a then 1 else 0)
      = holders s1 a := by
  have hg : get (swap s1 t h) t = get s1 h := by
    rw [get_swap s1 t h t ht hh]; simp [hne]
  have hl : isLive (swap s1 t h) t = true := by rw [isLive_swap s1 t h t ht hh]; exact ht
  have e1 := holders_dtor w (swap s1 t h) t a hl
  rw [hg, holders_swap s1 t h a ht hh] at e1
  exact e1

theorem holders_reset_raw (w : Nat) (s : State) (h : Nat) (p : Option Nat) (f : Bool) (a : Nat)
    (hl : isLive s h = true) :
    holders (reset_raw w s h p f) a + (if get s h = some a then 1 else 0)
      = holders s a + (if p = some a then 1 else 0) := by
  have hne := ne_length_of_live s h hl
  have h2 := (handles_ctor_raw w s p f).2
  have e := holders_temp w (ctor_raw w s p f).1 (ctor_raw w s p f).2 h a
    (by rw [h2, live_ctor_raw]; simp)
    (by rw [live_ctor_raw]; simp [hne, hl])
    (by rw [h2]; exact fun x => hne x.symm)
  rw [get_ctor_raw, if_neg hne, holders_congr _ _ (handles_ctor_raw w s p f).1,
    holders_newHandle] at e
  exact e

/-- The net effect of every client operation, with the acquired and the
released address spelled out. -/
theorem op_effect_explicit (w : Nat) (s : State) (op : Op) (hargs : op.argsOk s = true) :
    Effect w s (op.apply w s) (op.acquires s) (op.releases s) := by
  cases op with
  | defaultCtor => exact effect_ctor_default w s
  | rawCtor p => exact effect_ctor_raw w s p
  | copyCtor r => exact effect_ctor_raw w s (get s r)
  | moveCtor r => exact effect_ctor_move w s r hargs
  | copyAssign d r =>
    simp only [Op.argsOk, Bool.and_eq_true] at hargs
    exact effect_assign_raw w s d (get s r) hargs.1
  | moveAssign d r =>
    simp only [Op.argsOk, Bool.and_eq_true] at hargs
    exact effect_assign_move w s d r hargs.1 hargs.2
  | rawAssign d p =>
    simp only [Op.argsOk, Bool.and_eq_true] at hargs
    exact effect_assign_raw w s d p hargs.1
  | reset h => exact effect_reset w s h hargs
  | resetRaw h p =>
    simp only [Op.argsOk, Bool.and_eq_true] at hargs
    exact effect_assign_raw w s h p hargs.1
  | swap a b =>
    simp only [Op.argsOk, Bool.and_eq_true] at hargs
    exact effect_swap w s a b hargs.1 hargs.2
  | destroy h => exact effect_dtor w s h hargs

theorem releases_held (s : State) (op : Op) (a : Nat) (h : op.releases s = some a) :
    0 < holders s a := by
  cases op with
  | moveAssign d r =>
    simp only [Op.releases] at h
    by_cases e : d = r
    · simp [e] at h
    · rw [if_neg e] at h; exact holders_pos_of_get s d a h
  | copyAssign d r => exact holders_pos_of_get s d a h
  | rawAssign d p => exact holders_pos_of_get s d a h
  | reset k => exact holders_pos_of_get s k a h
  | resetRaw k p => exact holders_pos_of_get s k a h
  | destroy k => exact holders_pos_of_get s k a h
  | defaultCtor => simp [Op.releases] at h
  | rawCtor p => simp [Op.releases] at h
  | copyCtor r => simp [Op.releases] at h
  | moveCtor r => simp [Op.releases] at h
  | swap x y => simp [Op.releases] at h

theorem roomFor_spec (w : Nat) (s : State) (p : Option Nat) (h : roomFor w s p = true) (a : Nat)
    (hp : p = some a) : s.heap.counter a + 1 < 2 ^ w := by
  subst hp
  simpa [roomFor] using h

theorem adoptable_spec (t : Tracked) (p : Option Nat) (h : adoptable t p = true) (a : Nat)
    (hp : p = some a) : 1 ≤ t.detached a := by
  subst hp
  simpa [adoptable] using h

theorem tinv_not_deleted (w : Nat) (t : Tracked) (hinv : TInv w t) (a : Nat)
    (h : 0 < holders t.st a) : t.st.heap.deleted a = 0 := by
  rcases hinv a with ⟨i1, _, _⟩ | ⟨_, _, i3⟩
  · exact i1
  · omega

theorem acquires_not_deleted (w : Nat) (t : Tracked) (hinv : TInv w t) (op : Op)
    (hargs : op.argsOk t.st = true) (a : Nat) (h : op.acquires t.st = some a) :
    t.st.heap.deleted a = 0 := by
  cases op with
  | rawCtor p => exact validPtr_spec t.st p hargs a h
  | copyCtor r => exact tinv_not_deleted w t hinv a (holders_pos_of_get t.st r a h)
  | copyAssign d r => exact tinv_not_deleted w t hinv a (holders_pos_of_get t.st r a h)
  | rawAssign d p =>
    simp only [Op.argsOk, Bool.and_eq_true] at hargs
    exact validPtr_spec t.st p hargs.2 a h
  | resetRaw k p =>
    simp only [Op.argsOk, Bool.and_eq_true] at hargs
    exact validPtr_spec t.st p hargs.2 a h
  | defaultCtor => simp [Op.acquires] at h
  | moveCtor r => simp [Op.acquires] at h
  | moveAssign d r => simp [Op.acquires] at h
  | reset k => simp [Op.acquires] at h
  | swap x y => simp [Op.acquires] at h
  | destroy k => simp [Op.acquires] at h

/-- What one operation, escape hatch included, does to the object `a`. -/
theorem anyop_step (w : Nat) (t : Tracked) (op : AnyOp) (hinv : TInv w t)
    (hok : op.ok w t = true) (a : Nat) :
    (((op.apply w t).st.heap.deleted a = 0 ∧
        (op.apply w t).st.heap.counter a
          = holders (op.apply w t).st a + (op.apply w t).detached a ∧
        (op.apply w t).st.heap.counter a < 2 ^ w) ∨
      ((op.apply w t).st.heap.deleted a = 1 ∧ (op.apply w t).st.heap.counter a = 0 ∧
        holders (op.apply w t).st a + (op.apply w t).detached a = 0)) ∧
    ((op.apply w t).st.heap.deleted a ≠ t.st.heap.deleted a →
      holders (op.apply w t).st a + (op.apply w t).detached a = 0 ∧
      holders t.st a + t.detached a = 1) := by
  cases op with
  | plain op =>
    simp only [AnyOp.ok, Bool.and_eq_true] at hok
    have he := op_effect_explicit w t.st op hok.1
    exact count_step w t.st.heap (op.apply w t.st).heap (op.acquires t.st) (op.releases t.st)
      (fun x => holders t.st x + t.detached x)
      (fun x => holders (op.apply w t.st) x + t.detached x)
      he.heap (fun x => by have := he.holders x; dsimp only; omega)
      (fun x hx => ⟨acquires_not_deleted w t hinv op hok.1 x hx,
        roomFor_spec w t.st _ hok.2 x hx⟩)
      (fun x hx => by have := releases_held t.st op x hx; dsimp only; omega) a (hinv a)
  | detach h =>
    simp only [AnyOp.ok] at hok
    exact count_step w t.st.heap t.st.heap none none
      (fun x => holders t.st x + t.detached x)
      (fun x => holders (setPtr t.st h none) x + credit t.detached (get t.st h) x)
      rfl (fun x => by
        have := holders_setPtr t.st h none x hok
        dsimp only
        simp only [credit, reduceCtorEq, if_false] at this ⊢
        by_cases e : get t.st h = some x <;> simp only [e, if_true, if_false] at this ⊢ <;> omega)
      (fun x hx => by cases hx) (fun x hx => by cases hx) a (hinv a)
  | adoptCtor p =>
    simp only [AnyOp.ok] at hok
    have hm : (ctor_raw w t.st p false).1.heap = t.st.heap := by cases p <;> rfl
    exact count_step w t.st.heap (ctor_raw w t.st p false).1.heap none none
      (fun x => holders t.st x + t.detached x)
      (fun x => holders (ctor_raw w t.st p false).1 x + debit t.detached p x)
      (by rw [hm]; rfl) (fun x => by
        dsimp only
        rw [holders_congr _ _ (handles_ctor_raw w t.st p false).1, holders_newHandle]
        have hd := adoptable_spec t p hok x
        simp only [debit, reduceCtorEq, if_false]
        by_cases e : p = some x
        · have := hd e
          rw [if_pos e, if_pos e]; omega
        · rw [if_neg e, if_neg e]; omega)
      (fun x hx => by cases hx) (fun x hx => by cases hx) a (hinv a)
  | adoptReset h p =>
    simp only [AnyOp.ok, Bool.and_eq_true] at hok
    exact count_step w t.st.heap (reset_raw w t.st h p false).heap none (get t.st h)
      (fun x => holders t.st x + t.detached x)
      (fun x => holders (reset_raw w t.st h p false) x + debit t.detached p x)
      (heap_reset_raw_false w t.st h p hok.1) (fun x => by
        have hr := holders_reset_raw w t.st h p false x hok.1
        have hd := adoptable_spec t p hok.2 x
        dsimp only
        simp only [debit, reduceCtorEq, if_false]
        by_cases e : p = some x
        · have := hd e
          rw [if_pos e] at hr ⊢; omega
        · rw [if_neg e] at hr ⊢; omega)
      (fun x hx => by cases hx)
      (fun x hx => by have := holders_pos_of_get t.st h x hx; dsimp only; omega) a (hinv a)

theorem tinv_init (w : Nat) : TInv w Tracked.init := by
  intro a
  exact Or.inl ⟨rfl, rfl, Nat.two_pow_pos w⟩

theorem tinv_run (w : Nat) (ops : List AnyOp) : ∀ t : Tracked, TInv w t →
    okRunAny w t ops = true → TInv w (runAny w t ops) := by
  induction ops with
  | nil => intro t hinv _; exact hinv
  | cons op ops ih =>
    intro t hinv hok
    simp only [okRunAny, Bool.and_eq_true] at hok
    exact ih (op.apply w t) (fun a => (anyop_step w t op hinv hok.1 a).1) hok.2

/-- C19. Counting invariant with the escape hatch.  Let `s` be the state after
any sequence of handle operations, `detach()` and construction / `reset` with
`add_ref = false` included (the latter only on an address with an outstanding
detached reference; no counter overflow), and `t` the state after one more
such operation.  In `s` and in `t`, the counter of every object not deleted
equals the number of live handles storing its address plus the number of
references detached from it and not yet adopted back; the step deletes an
object only if that sum was 1 before and is 0 after, and a deleted object has
sum 0 and was deleted once. -/
theorem counting_with_escape_hatch (w : Nat) (ops : List AnyOp) (op : AnyOp) (s t : Tracked)
    (hs : s = runAny w Tracked.init ops) (ht : t = op.apply w s)
    (hok : okRunAny w Tracked.init ops = true) (hop : op.ok w s = true) (a : Nat) :
    (s.st.heap.deleted a = 0 → use_count s.st.heap a = holders s.st a + s.detached a) ∧
    (t.st.heap.deleted a = 0 → use_count t.st.heap a = holders t.st a + t.detached a) ∧
    (t.st.heap.deleted a ≠ s.st.heap.deleted a →
      holders t.st a + t.detached a = 0 ∧ holders s.st a + s.detached a = 1) ∧
    (t.st.heap.deleted a ≠ 0 → holders t.st a + t.detached a = 0) ∧
    t.st.heap.deleted a ≤ 1 := by
  subst hs ht
  have hinv := tinv_run w ops Tracked.init (tinv_init w) hok
  obtain ⟨h1, h2⟩ := anyop_step w _ op hinv hop a
  unfold use_count
  refine ⟨fun hd => ?_, fun hd => ?_, h2, fun hd => ?_, ?_⟩
  · rcases hinv a with ⟨_, i2, _⟩ | ⟨i1, _, _⟩
    · exact i2
    · omega
  · rcases h1 with ⟨_, i2, _⟩ | ⟨i1, _, _⟩
    · exact i2
    · omega
  · rcases h1 with ⟨i1, _, _⟩ | ⟨_, _, i3⟩
    · exact absurd i1 hd
    · exact i3
  · rcases h1 with ⟨i1, _, _⟩ | ⟨i1, _, _⟩ <;> omega

theorem counting_with_escape_hatch_witness :
    okRunAny 64 Tracked.init (hatchOps.take 3) = true ∧
    AnyOp.ok 64 (runAny 64 Tracked.init (hatchOps.take 3)) (AnyOp.adoptReset 1 (some 7)) = true ∧
    holders (runAny 64 Tracked.init (hatchOps.take 3)).st 7 = 1 ∧
    (runAny 64 Tracked.init (hatchOps.take 3)).detached 7 = 1 ∧
    ((runAny 64 Tracked.init (hatchOps.take 3)).st.heap.deleted 7 = 0 →
      use_count (runAny 64 Tracked.init (hatchOps.take 3)).st.heap 7
        = holders (runAny 64 Tracked.init (hatchOps.take 3)).st 7
          + (runAny 64 Tracked.init (hatchOps.take 3)).detached 7) ∧
    use_count (AnyOp.apply 64 (runAny 64 Tracked.init (hatchOps.take 3))
      (AnyOp.adoptReset 1 (some 7))).st.heap 7 = 2 :=
  ⟨by decide, by decide, by decide, by decide,
    (counting_with_escape_hatch 64 (hatchOps.take 3) (AnyOp.adoptReset 1 (some 7))
      (runAny 64 Tracked.init (hatchOps.take 3))
      (AnyOp.apply 64 (runAny 64 Tracked.init (hatchOps.take 3)) (AnyOp.adoptReset 1 (some 7)))
      rfl rfl (by decide) (by decide) 7).1,
    by decide⟩

/-! ## Lemmas for interleaved executions -/

theorem release_is_fetch_sub_then_delete (w : Nat) (m : Heap) (p : Nat) :
    intrusive_ptr_release w m p
      = if (fetch_sub w m p).2 = 1 then delete_object (fetch_sub w m p).1 p
        else (fetch_sub w m p).1 := rfl

theorem countP_set_add (l : List Slot) (i : Nat) (x y : Slot) (p : Slot → Bool)
    (hx : l[i]? = some x) :
    (l.set i y).countP p + (if p x = true then 1 else 0)
      = l.countP p + (if p y = true then 1 else 0) := by
  obtain ⟨hlt, hv⟩ := List.getElem?_eq_some_iff.1 hx
  rw [List.countP_set _ _ _ _ hlt, hv]
  have hle : (if p x = true then 1 else 0) ≤ l.countP p := by
    split
    · rename_i hc
      exact List.countP_pos_iff.2 ⟨x, by rw [← hv]; exact List.getElem_mem _, hc⟩
    · omega
  omega

theorem countP_snoc (l : List Slot) (z : Slot) (p : Slot → Bool) :
    (l ++ [z]).countP p = l.countP p + (if p z = true then 1 else 0) := by
  simp [List.countP_append, List.countP_cons]

theorem refs_le_occupied (c : CState) (a : Nat) : refs c a ≤ occupied c := by
  unfold refs occupied
  apply List.countP_mono_left
  intro x _ hx
  cases x with
  | destroyed => simp [Slot.holds] at hx
  | live p k => simp
  | dying b o => simp

theorem refs_pos_of_slot (c : CState) (r a k : Nat)
    (h : c.slots[r]? = some (Slot.live (some a) k)) : 0 < refs c a := by
  obtain ⟨hlt, hv⟩ := List.getElem?_eq_some_iff.1 h
  exact List.countP_pos_iff.2
    ⟨Slot.live (some a) k, by rw [← hv]; exact List.getElem_mem _, by simp [Slot.holds]⟩

theorem lastOuts_pos_of_slot (c : CState) (h a : Nat)
    (hs : c.slots[h]? = some (Slot.dying a 1)) : 0 < lastOuts c a := by
  obtain ⟨hlt, hv⟩ := List.getElem?_eq_some_iff.1 hs
  exact List.countP_pos_iff.2
    ⟨Slot.dying a 1, by rw [← hv]; exact List.getElem_mem _, by simp [Slot.lastOut]⟩

theorem holds_live (a : Nat) (p : Option Nat) (k : Nat) :
    (Slot.holds a (Slot.live p k) = true) ↔ p = some a := by
  cases p with
  | none => simp [Slot.holds]
  | some b => simp [Slot.holds]

theorem counter_fetch_sub (w : Nat) (m : Heap) (p a : Nat) :
    (fetch_sub w m p).1.counter a
      = if p = a then (m.counter a + 2 ^ w - 1) % 2 ^ w else m.counter a := by
  by_cases h : a = p
  · subst h; simp [fetch_sub]
  · have h2 : ¬ p = a := fun x => h x.symm
    simp [fetch_sub, h, h2]

theorem deleted_delete_object (m : Heap) (p a : Nat) :
    (delete_object m p).deleted a = if p = a then m.deleted a + 1 else m.deleted a := by
  by_cases h : a = p
  · subst h; simp [delete_object]
  · have h2 : ¬ p = a := fun x => h x.symm
    simp [delete_object, h, h2]

theorem cstep_same (w : Nat) (held : Nat → Prop) (c : CState) (hinv : CInv w held c) :
    CInv w held c ∧ ∀ a, (c.heap.deleted a ≠ c.heap.deleted a → refs c a = 0 ∧ refs c a = 0) :=
  ⟨hinv, fun _ h => absurd rfl h⟩

theorem cstep_copyBegin (w : Nat) (held : Nat → Prop) (c : CState) (r : Nat)
    (hinv : CInv w held c) :
    CInv w held ((Step.copyBegin r).apply w c) ∧
    ∀ a, (((Step.copyBegin r).apply w c).heap.deleted a ≠ c.heap.deleted a →
      refs c a = 0 ∧ refs ((Step.copyBegin r).apply w c) a = 0) := by
  simp only [Step.apply]
  split
  · rename_i p k hs
    have hr : ∀ a, refs { c with slots := c.slots.set r (Slot.live p (k + 1)) } a = refs c a := by
      intro a
      have := countP_set_add c.slots r _ (Slot.live p (k + 1)) (Slot.holds a) hs
      have e : Slot.holds a (Slot.live p (k + 1)) = Slot.holds a (Slot.live p k) := by
        cases p <;> rfl
      rw [e] at this
      unfold refs
      dsimp only
      omega
    have hl : ∀ a, lastOuts { c with slots := c.slots.set r (Slot.live p (k + 1)) } a
        = lastOuts c a := by
      intro a
      have := countP_set_add c.slots r _ (Slot.live p (k + 1)) (Slot.lastOut a) hs
      simp only [Slot.lastOut, Bool.false_eq_true, if_false] at this
      unfold lastOuts
      dsimp only
      omega
    have ho : occupied { c with slots := c.slots.set r (Slot.live p (k + 1)) } = occupied c := by
      have := countP_set_add c.slots r _ (Slot.live p (k + 1))
        (fun x => x != Slot.destroyed) hs
      simp at this
      unfold occupied
      dsimp only
      omega
    refine ⟨⟨by rw [ho]; exact hinv.1, fun a => ?_⟩, fun a h => absurd rfl h⟩
    rw [hr a, hl a]
    exact hinv.2 a
  · exact cstep_same w held c hinv

theorem cstep_move (w : Nat) (held : Nat → Prop) (c : CState) (r : Nat)
    (hinv : CInv w held c) (hok : (Step.move r).ok w c = true) :
    CInv w held ((Step.move r).apply w c) ∧
    ∀ a, (((Step.move r).apply w c).heap.deleted a ≠ c.heap.deleted a →
      refs c a = 0 ∧ refs ((Step.move r).apply w c) a = 0) := by
  have hroom : occupied c + 1 < 2 ^ w := by simpa [Step.ok] using hok
  simp only [Step.apply]
  split
  · rename_i p hs
    have hr : ∀ a, refs { c with slots := c.slots.set r (Slot.live none 0) ++ [Slot.live p 0] } a
        = refs c a := by
      intro a
      have := countP_set_add c.slots r _ (Slot.live none 0) (Slot.holds a) hs
      simp only [holds_live, reduceCtorEq, if_false] at this
      unfold refs
      dsimp only
      simp only [countP_snoc, holds_live]
      omega
    have hl : ∀ a, lastOuts { c with slots := c.slots.set r (Slot.live none 0) ++ [Slot.live p 0] } a
        = lastOuts c a := by
      intro a
      have := countP_set_add c.slots r _ (Slot.live none 0) (Slot.lastOut a) hs
      simp only [Slot.lastOut, Bool.false_eq_true, if_false] at this
      unfold lastOuts
      dsimp only
      simp only [countP_snoc, Slot.lastOut, Bool.false_eq_true, if_false]
      omega
    have ho : occupied { c with slots := c.slots.set r (Slot.live none 0) ++ [Slot.live p 0] }
        = occupied c + 1 := by
      have := countP_set_add c.slots r _ (Slot.live none 0)
        (fun x => x != Slot.destroyed) hs
      simp at this
      unfold occupied
      dsimp only
      simp only [countP_snoc]
      simp
      omega
    refine ⟨⟨by rw [ho]; exact hroom, fun a => ?_⟩, fun a h => absurd rfl h⟩
    rw [hr a, hl a]
    exact hinv.2 a
  · exact cstep_same w held c hinv

theorem ind_eq (b : Bool) (Q : Prop) [Decidable Q] (h : b = true ↔ Q) :
    (if b = true then 1 else 0 : Nat) = if Q then 1 else 0 := by
  by_cases q : Q
  · rw [if_pos q, if_pos (h.2 q)]
  · rw [if_neg q, if_neg (fun x => q (h.1 x))]

theorem lastOut_dying (a b old : Nat) :
    (Slot.lastOut a (Slot.dying b old) = true) ↔ (b = a ∧ old = 1) := by
  simp [Slot.lastOut]

theorem cstep_copyEnd (w : Nat) (held : Nat → Prop) (c : CState) (r : Nat)
    (hinv : CInv w held c) (hok : (Step.copyEnd r).ok w c = true) :
    CInv w held ((Step.copyEnd r).apply w c) ∧
    ∀ a, (((Step.copyEnd r).apply w c).heap.deleted a ≠ c.heap.deleted a →
      refs c a = 0 ∧ refs ((Step.copyEnd r).apply w c) a = 0) := by
  have hroom : occupied c + 1 < 2 ^ w := by simpa [Step.ok] using hok
  simp only [Step.apply]
  split
  · rename_i p k hs
    have hr : ∀ a, refs (CState.mk (addOpt w c.heap p)
        (c.slots.set r (Slot.live p k) ++ [Slot.live p 0])) a
        = refs c a + (if p = some a then 1 else 0) := by
      intro a
      have := countP_set_add c.slots r _ (Slot.live p k) (Slot.holds a) hs
      have e : Slot.holds a (Slot.live p (k + 1)) = Slot.holds a (Slot.live p k) := by
        cases p <;> rfl
      rw [e] at this
      unfold refs
      dsimp only
      simp only [countP_snoc, holds_live]
      omega
    have hl : ∀ a, lastOuts (CState.mk (addOpt w c.heap p)
        (c.slots.set r (Slot.live p k) ++ [Slot.live p 0])) a = lastOuts c a := by
      intro a
      have := countP_set_add c.slots r _ (Slot.live p k) (Slot.lastOut a) hs
      simp only [Slot.lastOut, Bool.false_eq_true, if_false] at this
      unfold lastOuts
      dsimp only
      simp only [countP_snoc, Slot.lastOut, Bool.false_eq_true, if_false]
      omega
    have ho : occupied (CState.mk (addOpt w c.heap p)
        (c.slots.set r (Slot.live p k) ++ [Slot.live p 0])) = occupied c + 1 := by
      have := countP_set_add c.slots r _ (Slot.live p k) (fun x => x != Slot.destroyed) hs
      simp at this
      unfold occupied
      dsimp only
      simp only [countP_snoc]
      simp
      omega
    refine ⟨⟨by rw [ho]; exact hroom, fun a => ?_⟩, fun a h => ?_⟩
    · obtain ⟨i1, i2, i3, i5⟩ := hinv.2 a
      have hle := refs_le_occupied c a
      rw [hr a, hl a]
      dsimp only
      rw [counter_addOpt, deleted_addOpt]
      by_cases e : p = some a
      · have hpos : 0 < refs c a := refs_pos_of_slot c r a (k + 1) (by rw [hs, e])
        rw [if_pos e, if_pos e, word_succ w _ (by omega)]
        refine ⟨by omega, i2, fun x => ?_, fun _ => Or.inl (by omega)⟩
        have := i3 x
        omega
      · rw [if_neg e, if_neg e]
        exact ⟨i1, i2, i3, i5⟩
    · dsimp only at h
      rw [deleted_addOpt] at h
      exact absurd rfl h
  · exact cstep_same w held c hinv

theorem cstep_destroyBegin (w : Nat) (held : Nat → Prop) (c : CState) (h : Nat)
    (hinv : CInv w held c) :
    CInv w held ((Step.destroyBegin h).apply w c) ∧
    ∀ a, (((Step.destroyBegin h).apply w c).heap.deleted a ≠ c.heap.deleted a →
      refs c a = 0 ∧ refs ((Step.destroyBegin h).apply w c) a = 0) := by
  simp only [Step.apply]
  split
  · rename_i b hs
    have hr : ∀ a, refs (CState.mk ((fetch_sub w c.heap b).1)
        (c.slots.set h (Slot.dying b (fetch_sub w c.heap b).2))) a
        + (if b = a then 1 else 0) = refs c a := by
      intro a
      have := countP_set_add c.slots h _ (Slot.dying b (fetch_sub w c.heap b).2)
        (Slot.holds a) hs
      have e1 : (Slot.holds a (Slot.live (some b) 0) = true) ↔ b = a := by simp [Slot.holds]
      rw [ind_eq _ _ e1] at this
      simp only [Slot.holds, Bool.false_eq_true, if_false] at this
      unfold refs
      dsimp only
      omega
    have hl : ∀ a, lastOuts (CState.mk ((fetch_sub w c.heap b).1)
        (c.slots.set h (Slot.dying b (fetch_sub w c.heap b).2))) a
        = lastOuts c a + (if b = a ∧ c.heap.counter b = 1 then 1 else 0) := by
      intro a
      have := countP_set_add c.slots h _ (Slot.dying b (fetch_sub w c.heap b).2)
        (Slot.lastOut a) hs
      rw [ind_eq _ _ (lastOut_dying a b (fetch_sub w c.heap b).2)] at this
      simp only [Slot.lastOut, Bool.false_eq_true, if_false] at this
      unfold lastOuts
      dsimp only
      have e : (fetch_sub w c.heap b).2 = c.heap.counter b := rfl
      rw [e] at this ⊢
      omega
    have ho : occupied (CState.mk ((fetch_sub w c.heap b).1)
        (c.slots.set h (Slot.dying b (fetch_sub w c.heap b).2))) = occupied c := by
      have := countP_set_add c.slots h _ (Slot.dying b (fetch_sub w c.heap b).2)
        (fun x => x != Slot.destroyed) hs
      simp at this
      unfold occupied
      dsimp only
      omega
    refine ⟨⟨by rw [ho]; exact hinv.1, fun a => ?_⟩, fun a hd => absurd rfl hd⟩
    obtain ⟨i1, i2, i3, i5⟩ := hinv.2 a
    have hle := refs_le_occupied c a
    have hocc := hinv.1
    have hra := hr a
    rw [hl a]
    dsimp only
    rw [counter_fetch_sub]
    have hdel : (fetch_sub w c.heap b).1.deleted a = c.heap.deleted a := rfl
    rw [hdel]
    by_cases e : b = a
    · subst e
      have hpos : 0 < refs c b := refs_pos_of_slot c h b 0 hs
      rw [if_pos rfl] at hra ⊢
      rw [word_pred w _ (by omega) (by omega)]
      have hsum : c.heap.deleted b + lastOuts c b = 0 := by
        by_cases x : c.heap.deleted b + lastOuts c b = 1
        · have := i3 x; omega
        · omega
      by_cases h1 : c.heap.counter b = 1
      · have k1 : b = b ∧ c.heap.counter b = 1 := ⟨rfl, h1⟩
        rw [if_pos k1]
        exact ⟨by omega, by omega, fun _ => by omega, fun _ => Or.inr (by omega)⟩
      · have k1 : ¬ (b = b ∧ c.heap.counter b = 1) := fun x => h1 x.2
        rw [if_neg k1]
        exact ⟨by omega, by omega, fun x => by omega, fun _ => Or.inl (by omega)⟩
    · have k1 : ¬ (b = a ∧ c.heap.counter b = 1) := fun x => e x.1
      rw [if_neg e] at hra ⊢
      rw [if_neg k1]
      have hrr : refs (CState.mk ((fetch_sub w c.heap b).1)
        (c.slots.set h (Slot.dying b (fetch_sub w c.heap b).2))) a = refs c a := by omega
      rw [hrr]
      exact ⟨i1, i2, i3, i5⟩
  · rename_i hs
    have hr : ∀ a, refs { c with slots := c.slots.set h Slot.destroyed } a = refs c a := by
      intro a
      have := countP_set_add c.slots h _ Slot.destroyed (Slot.holds a) hs
      simp only [holds_live, Slot.holds, Bool.false_eq_true, if_false, reduceCtorEq] at this
      unfold refs
      dsimp only
      omega
    have hl : ∀ a, lastOuts { c with slots := c.slots.set h Slot.destroyed } a
        = lastOuts c a := by
      intro a
      have := countP_set_add c.slots h _ Slot.destroyed (Slot.lastOut a) hs
      simp only [Slot.lastOut, Bool.false_eq_true, if_false] at this
      unfold lastOuts
      dsimp only
      omega
    have ho : occupied { c with slots := c.slots.set h Slot.destroyed } + 1 = occupied c := by
      have := countP_set_add c.slots h _ Slot.destroyed (fun x => x != Slot.destroyed) hs
      simp at this
      unfold occupied
      dsimp only
      omega
    refine ⟨⟨by have := hinv.1; omega, fun a => ?_⟩, fun a hd => absurd rfl hd⟩
    rw [hr a, hl a]
    exact hinv.2 a
  · exact cstep_same w held c hinv

theorem cstep_destroyEnd (w : Nat) (held : Nat → Prop) (c : CState) (h : Nat)
    (hinv : CInv w held c) :
    CInv w held ((Step.destroyEnd h).apply w c) ∧
    ∀ a, (((Step.destroyEnd h).apply w c).heap.deleted a ≠ c.heap.deleted a →
      refs c a = 0 ∧ refs ((Step.destroyEnd h).apply w c) a = 0) := by
  simp only [Step.apply]
  split
  · rename_i b old hs
    have hr : ∀ a, refs (CState.mk (if old = 1 then delete_object c.heap b else c.heap)
        (c.slots.set h Slot.destroyed)) a = refs c a := by
      intro a
      have := countP_set_add c.slots h _ Slot.destroyed (Slot.holds a) hs
      simp only [Slot.holds, Bool.false_eq_true, if_false] at this
      unfold refs
      dsimp only
      omega
    have hl : ∀ a, lastOuts (CState.mk (if old = 1 then delete_object c.heap b else c.heap)
        (c.slots.set h Slot.destroyed)) a + (if b = a ∧ old = 1 then 1 else 0)
        = lastOuts c a := by
      intro a
      have := countP_set_add c.slots h _ Slot.destroyed (Slot.lastOut a) hs
      rw [ind_eq _ _ (lastOut_dying a b old)] at this
      simp only [Slot.lastOut, Bool.false_eq_true, if_false] at this
      unfold lastOuts
      dsimp only
      omega
    have ho : occupied (CState.mk (if old = 1 then delete_object c.heap b else c.heap)
        (c.slots.set h Slot.destroyed)) + 1 = occupied c := by
      have := countP_set_add c.slots h _ Slot.destroyed (fun x => x != Slot.destroyed) hs
      simp at this
      unfold occupied
      dsimp only
      omega
    have hc : ∀ a, (if old = 1 then delete_object c.heap b else c.heap).counter a
        = c.heap.counter a := by
      intro a; split <;> rfl
    have hd : ∀ a, (if old = 1 then delete_object c.heap b else c.heap).deleted a
        = c.heap.deleted a + (if b = a ∧ old = 1 then 1 else 0) := by
      intro a
      by_cases h1 : old = 1
      · rw [if_pos h1, deleted_delete_object]
        by_cases e : b = a <;> simp [e, h1]
      · simp [h1]
    refine ⟨⟨by have := hinv.1; omega, fun a => ?_⟩, fun a hne => ?_⟩
    · obtain ⟨i1, i2, i3, i5⟩ := hinv.2 a
      have hla := hl a
      rw [hr a]
      dsimp only
      rw [hc a, hd a]
      refine ⟨i1, by omega, fun x => i3 (by omega), fun hh => ?_⟩
      rcases i5 hh with y | y
      · exact Or.inl y
      · exact Or.inr (by omega)
    · obtain ⟨i1, i2, i3, i5⟩ := hinv.2 a
      have hla := hl a
      dsimp only at hne
      rw [hd a] at hne
      rw [hr a]
      have hk : b = a ∧ old = 1 := by
        by_contra x
        rw [if_neg x] at hne
        exact hne rfl
      rw [if_pos hk] at hla
      have := i3 (by omega)
      exact ⟨this, this⟩
  · exact cstep_same w held c hinv

/-- Every atomic step keeps the invariant of interleaved executions, and a step
that deletes an object finds no handle storing its address. -/
theorem cstep (w : Nat) (held : Nat → Prop) (c : CState) (st : Step)
    (hinv : CInv w held c) (hok : st.ok w c = true) :
    CInv w held (st.apply w c) ∧
    ∀ a, ((st.apply w c).heap.deleted a ≠ c.heap.deleted a →
      refs c a = 0 ∧ refs (st.apply w c) a = 0) := by
  cases st with
  | copyBegin r => exact cstep_copyBegin w held c r hinv
  | copyEnd r => exact cstep_copyEnd w held c r hinv hok
  | move r => exact cstep_move w held c r hinv hok
  | destroyBegin h => exact cstep_destroyBegin w held c h hinv
  | destroyEnd h => exact cstep_destroyEnd w held c h hinv

theorem cinv_run (w : Nat) (held : Nat → Prop) (steps : List Step) : ∀ c : CState,
    CInv w held c → cok w c steps = true → CInv w held (crun w c steps) := by
  induction steps with
  | nil => intro c hinv _; exact hinv
  | cons st sts ih =>
    intro c hinv hok
    simp only [cok, Bool.and_eq_true] at hok
    exact ih (st.apply w c) (cstep w held c st hinv hok.1).1 hok.2

theorem refs_ofState (s : State) (a : Nat) : refs (ofState s) a = holders s a := by
  unfold refs holders ofState
  dsimp only
  induction s.handles with
  | nil => rfl
  | cons x l ih =>
    rw [List.map_cons, List.countP_cons, List.count_cons, ih]
    cases x with
    | destroyed => simp [Slot.holds]
    | live p =>
      cases p with
      | none => simp [Slot.holds]
      | some b => simp [Slot.holds]

theorem lastOuts_ofState (s : State) (a : Nat) : lastOuts (ofState s) a = 0 := by
  unfold lastOuts ofState
  dsimp only
  rw [List.countP_eq_zero]
  intro x hx
  obtain ⟨y, _, hy⟩ := List.mem_map.1 hx
  subst hy
  cases y <;> simp [Slot.lastOut]

theorem occupied_ofState (s : State) : occupied (ofState s) = liveCount s := by
  unfold occupied liveCount ofState
  dsimp only
  induction s.handles with
  | nil => rfl
  | cons x l ih =>
    rw [List.map_cons, List.countP_cons, List.countP_cons, ih]
    cases x <;> simp

theorem cinv_ofState (w : Nat) (s : State) (hinv : Inv s) (hb : liveCount s < 2 ^ w) :
    CInv w (fun a => 0 < holders s a) (ofState s) := by
  refine ⟨by rw [occupied_ofState]; exact hb, fun a => ?_⟩
  rw [refs_ofState, lastOuts_ofState]
  have hh : (ofState s).heap = s.heap := rfl
  rw [hh]
  rcases hinv a with ⟨i1, i2⟩ | ⟨i1, i2, i3⟩
  · exact ⟨i2, by omega, fun x => by omega, fun x => Or.inl x⟩
  · exact ⟨by omega, by omega, fun _ => i3, fun _ => Or.inr (by omega)⟩

theorem lastOuts_quiescent (c : CState) (a : Nat) (hq : quiescent c = true) :
    lastOuts c a = 0 := by
  unfold lastOuts
  rw [List.countP_eq_zero]
  intro x hx
  unfold quiescent at hq
  have := (List.all_eq_true.1 hq) x hx
  cases x with
  | destroyed => simp [Slot.lastOut]
  | live p k => simp [Slot.lastOut]
  | dying b o => simp at this

/-- C18. Thread-safe counting.  Threads start from the handles of any state
built by a well-behaved client and perform copy constructions, move
constructions and destructions on handles no other operation is using, their
atomic steps interleaved in any order (`fetch_add` and `fetch_sub` are single
steps; the read of the source, the comparison with 1 and the `delete` are
steps of their own).  Let `c` be the state after any such interleaving and `d`
the state after one more step.  For every object `a`: `delete` ran on it at
most once; the step deletes `a` only if no handle stores `a` before and after
it; once deleted, no handle stores `a`; the counter equals the number of
handles storing `a`; and an object that had a handle at the start and has
none left when no member function is in progress has been deleted. -/
theorem thread_safe_counting (w : Nat) (ops : List Op) (steps : List Step) (st : Step)
    (c d : CState) (hc : c = crun w (ofState (run w State.init ops)) steps)
    (hd : d = st.apply w c) (hok : okRun w State.init ops)
    (hsteps : cok w (ofState (run w State.init ops)) steps = true)
    (hst : st.ok w c = true) (a : Nat) :
    d.heap.deleted a ≤ 1 ∧
    (d.heap.deleted a ≠ c.heap.deleted a → refs c a = 0 ∧ refs d a = 0) ∧
    (d.heap.deleted a = 1 → refs d a = 0) ∧
    use_count d.heap a = refs d a ∧
    (0 < holders (run w State.init ops) a → refs d a = 0 → quiescent d = true →
      d.heap.deleted a = 1) := by
  subst hc hd
  obtain ⟨hinv, hb⟩ := inv_run w ops State.init inv_init (init_room w) hok
  have h0 := cinv_ofState w _ hinv hb
  have h1 := cinv_run w _ steps _ h0 hsteps
  obtain ⟨h2, h3⟩ := cstep w _ _ st h1 hst
  obtain ⟨i1, i2, i3, i5⟩ := h2.2 a
  refine ⟨by omega, h3 a, fun x => i3 (by omega), i1, fun hh hr hq => ?_⟩
  have hl := lastOuts_quiescent _ a hq
  rcases i5 hh with y | y
  · omega
  · omega

theorem thread_safe_counting_witness :
    okRun 64 State.init [Op.rawCtor (some 7), Op.copyCtor 0] ∧
    cok 64 (ofState (run 64 State.init [Op.rawCtor (some 7), Op.copyCtor 0]))
      (raceSteps.take 6) = true ∧
    (crun 64 (ofState (run 64 State.init [Op.rawCtor (some 7), Op.copyCtor 0]))
      (raceSteps.take 6)).heap.deleted 7 = 0 ∧
    (Step.apply 64 (crun 64 (ofState (run 64 State.init [Op.rawCtor (some 7), Op.copyCtor 0]))
      (raceSteps.take 6)) (Step.destroyEnd 2)).heap.deleted 7 = 1 ∧
    (Step.apply 64 (crun 64 (ofState (run 64 State.init [Op.rawCtor (some 7), Op.copyCtor 0]))
      (raceSteps.take 6)) (Step.destroyEnd 2)).heap.deleted 7 ≤ 1 :=
  ⟨by decide, by decide, by decide, by decide,
    (thread_safe_counting 64 [Op.rawCtor (some 7), Op.copyCtor 0] (raceSteps.take 6)
      (Step.destroyEnd 2) _ _ rfl rfl (by decide) (by decide) (by decide) 7).1⟩

end IntrusivePtr
